import Mathlib

/-!
Verification of the publication-fetching and post-processing scripts
(`generate_orcid_bib.py`, `post_process.py`) of the site repository.

The scripts are shallowly embedded: strings are lists of Unicode code
points (`List Char`), Python `str.replace` becomes `replaceAll`,
`unicodedata.normalize` becomes a table-driven model restricted to the
characters this development uses, the filesystem becomes an association
list from paths to contents and modification times, and the network is a
parameter of the run function (`Env`).
-/

namespace OrcidBib

/-- Apostrophe character (U+0027), used in LaTeX escape values. -/
def sq : Char := Char.ofNat 39

/-- Backtick character (U+0060), used in LaTeX escape values. -/
def bq : Char := Char.ofNat 96

/-! ### Python `str.replace` -/

/-- Fueled worker for `replaceAll`.  Replaces every leftmost,
non-overlapping occurrence of `k` by `v`, scanning left to right, exactly
as Python's `str.replace`.  The fuel argument only forces structural
recursion; every use supplies `fuel ≥ length`. -/
def replaceAllF (k v : List Char) : Nat → List Char → List Char
  | 0, l => l
  | _ + 1, [] => []
  | fuel + 1, c :: rest =>
    if k.isPrefixOf (c :: rest) then
      v ++ replaceAllF k v fuel (rest.drop (k.length - 1))
    else
      c :: replaceAllF k v fuel rest

/-- Model of Python `str.replace s k v` (all occurrences, leftmost,
non-overlapping).  The repair table never contains an empty pattern, so
the empty-pattern case (where Python would interleave `v` everywhere) is
mapped to the identity. -/
def replaceAll (k v l : List Char) : List Char :=
  if k = [] then l else replaceAllF k v l.length l

/-! ### Restricted model of Unicode normalization

`generate_orcid_bib.py` calls `unicodedata.normalize('NFKC', text)`.
The model below implements NFKC (and, for comparison with the spec, NFC)
restricted to the characters that appear in this development: ASCII, the
precomposed Latin letters of the repair table together with their
canonical decompositions (base letter followed by a combining mark), the
masculine ordinal indicator `º` (whose NFKC compatibility decomposition
is `o`), and the remaining symbols of the table (dashes, curly quotes,
`ß`, `€`, `¢`, `Ã`, `â`), all of which are NFKC-stable.  All relevant
compatibility decompositions are single characters, and the inputs
handled here carry at most one combining mark per base letter. -/

/-- Combining marks used by the canonical compositions below. -/
def markChars : List Char :=
  [Char.ofNat 0x300, Char.ofNat 0x301, Char.ofNat 0x302,
   Char.ofNat 0x303, Char.ofNat 0x308, Char.ofNat 0x327]

/-- Canonical composition pairs `(base, combining mark) ↦ composed`. -/
def composeTable : List ((Char × Char) × Char) :=
  [(('a', Char.ofNat 0x301), 'á'), (('A', Char.ofNat 0x301), 'Á'),
   (('a', Char.ofNat 0x300), 'à'), (('A', Char.ofNat 0x300), 'À'),
   (('a', Char.ofNat 0x303), 'ã'), (('A', Char.ofNat 0x303), 'Ã'),
   (('a', Char.ofNat 0x302), 'â'), (('A', Char.ofNat 0x302), 'Â'),
   (('e', Char.ofNat 0x301), 'é'), (('E', Char.ofNat 0x301), 'É'),
   (('e', Char.ofNat 0x300), 'è'), (('E', Char.ofNat 0x300), 'È'),
   (('i', Char.ofNat 0x301), 'í'), (('I', Char.ofNat 0x301), 'Í'),
   (('o', Char.ofNat 0x301), 'ó'), (('O', Char.ofNat 0x301), 'Ó'),
   (('o', Char.ofNat 0x300), 'ò'), (('O', Char.ofNat 0x300), 'Ò'),
   (('o', Char.ofNat 0x303), 'õ'), (('O', Char.ofNat 0x303), 'Õ'),
   (('u', Char.ofNat 0x301), 'ú'), (('U', Char.ofNat 0x301), 'Ú'),
   (('u', Char.ofNat 0x300), 'ù'), (('U', Char.ofNat 0x300), 'Ù'),
   (('a', Char.ofNat 0x308), 'ä'), (('A', Char.ofNat 0x308), 'Ä'),
   (('o', Char.ofNat 0x308), 'ö'), (('O', Char.ofNat 0x308), 'Ö'),
   (('u', Char.ofNat 0x308), 'ü'), (('U', Char.ofNat 0x308), 'Ü'),
   (('n', Char.ofNat 0x303), 'ñ'), (('N', Char.ofNat 0x303), 'Ñ'),
   (('c', Char.ofNat 0x327), 'ç'), (('C', Char.ofNat 0x327), 'Ç')]

/-- Canonical composition of a base character with a combining mark. -/
def composePair (b m : Char) : Option Char :=
  (composeTable.find? (fun e => e.1.1 == b && e.1.2 == m)).map (·.2)

/-- Fueled canonical-composition pass: repeatedly composes a character
with a directly following combining mark. -/
def composeCharsF : Nat → List Char → List Char
  | 0, l => l
  | _ + 1, [] => []
  | _ + 1, [x] => [x]
  | fuel + 1, x :: y :: r =>
    match composePair x y with
    | some z => composeCharsF fuel (z :: r)
    | none => x :: composeCharsF fuel (y :: r)

/-- Canonical-composition pass over a list of characters. -/
def composeChars (l : List Char) : List Char := composeCharsF l.length l

/-- Compatibility mapping of a single character (restricted model: the
only relevant character with a non-trivial NFKC compatibility
decomposition is `º`, which maps to `o`). -/
def compatChar (c : Char) : Char := if c = 'º' then 'o' else c

/-- Restricted model of `unicodedata.normalize('NFKC', ·)`:
compatibility mapping followed by canonical composition. -/
def nfkc (l : List Char) : List Char := composeChars (l.map compatChar)

/-- Restricted model of `unicodedata.normalize('NFC', ·)` (canonical
composition only, no compatibility mapping).  This follows the spec's
words — "normalize the input to its canonical composed Unicode form" —
and exists to be compared with the source's NFKC normalization. -/
def nfc (l : List Char) : List Char := composeChars l

/-! ### The repair table and `cleanup_bibtex_entry` -/

/-- `LATEX_MAP` from `generate_orcid_bib.py`, in exact source (insertion)
order.  Values are spelled as character lists to keep LaTeX escape
characters explicit. -/
def LATEX_MAP : List (List Char × List Char) :=
  [(['á'], ['{', '\\', sq, 'a', '}']), (['Á'], ['{', '\\', sq, 'A', '}']),
   (['à'], ['{', '\\', bq, 'a', '}']), (['À'], ['{', '\\', bq, 'A', '}']),
   (['ã'], ['{', '\\', '~', 'a', '}']), (['Ã'], ['{', '\\', '~', 'A', '}']),
   (['é'], ['{', '\\', sq, 'e', '}']), (['É'], ['{', '\\', sq, 'E', '}']),
   (['è'], ['{', '\\', bq, 'e', '}']), (['È'], ['{', '\\', bq, 'E', '}']),
   (['í'], ['{', '\\', sq, 'i', '}']), (['Í'], ['{', '\\', sq, 'I', '}']),
   (['ó'], ['{', '\\', sq, 'o', '}']), (['Ó'], ['{', '\\', sq, 'O', '}']),
   (['ò'], ['{', '\\', bq, 'o', '}']), (['Ò'], ['{', '\\', bq, 'O', '}']),
   (['õ'], ['{', '\\', '~', 'o', '}']), (['Õ'], ['{', '\\', '~', 'O', '}']),
   (['ú'], ['{', '\\', sq, 'u', '}']), (['Ú'], ['{', '\\', sq, 'U', '}']),
   (['ù'], ['{', '\\', bq, 'u', '}']), (['Ù'], ['{', '\\', bq, 'U', '}']),
   (['ä'], ['{', '\\', '"', 'a', '}']), (['Ä'], ['{', '\\', '"', 'A', '}']),
   (['ö'], ['{', '\\', '"', 'o', '}']), (['Ö'], ['{', '\\', '"', 'O', '}']),
   (['ü'], ['{', '\\', '"', 'u', '}']), (['Ü'], ['{', '\\', '"', 'U', '}']),
   (['ñ'], ['{', '\\', '~', 'n', '}']), (['Ñ'], ['{', '\\', '~', 'N', '}']),
   (['ç'], ['{', '\\', 'c', ' ', 'c', '}']), (['Ç'], ['{', '\\', 'c', ' ', 'C', '}']),
   (['–'], ['-', '-']),
   (['—'], ['-', '-', '-']),
   (['ß'], ['{', '\\', 's', 's', '}']),
   (['º'], ['^', '{', '\\', 'c', 'i', 'r', 'c', '}']),
   (['&', 'A', 'm', 'p', ';'], ['{', '\\', '&', '}']),
   (['&', 'a', 'm', 'p', ';'], ['{', '\\', '&', '}']),
   (['“'], [bq, bq]),
   (['”'], [sq, sq]),
   (['Ã', '¢'], ['{', '\\', '^', 'a', '}']),
   (['Ã', '©'], ['{', '\\', sq, 'e', '}']),
   (['â', '€', '“'], ['-', '-']),
   (['â', '€'], ['-', '-', '-'])]

/-- The ordered substitution loop of `cleanup_bibtex_entry`: apply every
`LATEX_MAP` entry, in table order, by exact substring replacement. -/
def applyLatexMap (l : List Char) : List Char :=
  LATEX_MAP.foldl (fun acc e => replaceAll e.1 e.2 acc) l

/-- `cleanup_bibtex_entry` from `generate_orcid_bib.py`: NFKC-normalize,
then apply the ordered substitution table. -/
def cleanup_bibtex_entry (l : List Char) : List Char :=
  applyLatexMap (nfkc l)

/-! ### Filesystem model and the staleness gate -/

/-- Filesystem model: association list from path to content and
modification time (seconds, as in Python's `time.time()`). -/
abbrev FS := List (String × String × ℚ)

/-- Content and mtime stored at a path, if the file exists. -/
def fsLookup (fs : FS) (p : String) : Option (String × ℚ) :=
  (fs.find? (fun e => e.1 == p)).map (·.2)

/-- Write (create or overwrite) a file. -/
def fsWrite (fs : FS) (p content : String) (t : ℚ) : FS :=
  (p, content, t) :: fs.filter (fun e => e.1 != p)

/-- `os.path.exists` for the model. -/
def fsExists (fs : FS) (p : String) : Bool := (fsLookup fs p).isSome

/-- Configuration constants of `generate_orcid_bib.py`. -/
def ORCID_ID : String := "0000-0002-7385-4723"

/-- The consolidated output file, `os.path.join(ASSETS_DIR, "references.bib")`. -/
def BIB_FILE : String := "assets/references.bib"

/-- The per-publication output directory, `os.path.join(ASSETS_DIR, "bib")`. -/
def BIB_SUBDIR : String := "assets/bib"

/-- `CACHE_DURATION_HOURS` from the source. -/
def CACHE_DURATION_HOURS : ℚ := 24

/-- `is_cache_valid` from `generate_orcid_bib.py`: the consolidated file
exists and its age `now - mtime` is strictly below the freshness
window. -/
def is_cache_valid (fs : FS) (now : ℚ) : Bool :=
  match fsLookup fs BIB_FILE with
  | none => false
  | some e => decide (now - e.2 < CACHE_DURATION_HOURS * 3600)

/-! ### Registry response model and identifier extraction -/

/-- One entry of a work summary's `external-ids.external-id` list:
its `external-id-type` and (optional) `external-id-value`. -/
structure ExternalId where
  idType : String
  value : Option String
deriving DecidableEq

/-- The `year` substructure of `publication-date` (its `value` field may
be absent). -/
structure YearObj where
  value : Option String
deriving DecidableEq

/-- The `publication-date` substructure (its `year` field may be
absent; an absent or falsy `year` leaves the year at 0). -/
structure PubDate where
  year : Option YearObj
deriving DecidableEq

/-- One element of a work group's `work-summary` list. -/
structure WorkSummary where
  externalIds : List ExternalId
  pubDate : Option PubDate
deriving DecidableEq

/-- A publication identifier record `{"doi": ..., "year": ...}`. -/
structure Pub where
  doi : String
  year : Int
deriving DecidableEq

/-- Digits accumulator for `pyInt`. -/
def parseDigitsAux : List Char → Nat → Option Nat
  | [], acc => some acc
  | c :: r, acc =>
    if c.isDigit then parseDigitsAux r (acc * 10 + (c.toNat - 48)) else none

/-- A non-empty all-digit list parsed as a natural number. -/
def parseDigits : List Char → Option Nat
  | [] => none
  | l => parseDigitsAux l 0

/-- Python `str.strip()` on a character list: remove leading and
trailing whitespace. -/
def stripChars (l : List Char) : List Char :=
  ((l.dropWhile Char.isWhitespace).reverse.dropWhile Char.isWhitespace).reverse

/-- Model of Python `int(str)`: optional surrounding whitespace, an
optional sign, then decimal digits; anything else raises (here:
`none`).  (Python additionally accepts underscores as digit-group
separators, which never occur in the inputs considered here.) -/
def pyInt (s : String) : Option Int :=
  match stripChars s.toList with
  | '-' :: rest => (parseDigits rest).map (fun n => -(n : Int))
  | '+' :: rest => (parseDigits rest).map (fun n => (n : Int))
  | l => (parseDigits l).map (fun n => (n : Int))

/-- Lines 109-112 of `generate_orcid_bib.py`: the year defaults to 0
when the publication date or its year substructure is absent, or the
year value is missing or empty; a non-empty value is passed to `int`,
which raises (modeled as `Except.error`) on a non-integer string. -/
def computeYear (pd : Option PubDate) : Except String Int :=
  match pd with
  | none => .ok 0
  | some p =>
    match p.year with
    | none => .ok 0
    | some y =>
      match y.value with
      | none => .ok 0
      | some v =>
        if v = "" then .ok 0
        else
          match pyInt v with
          | some n => .ok n
          | none => .error ("invalid literal for int with base 10: " ++ v)

/-- Lines 103-116, for one work summary: scan the external identifiers
for the first one typed `doi`; its value is taken and the scan stops
there.  The year is computed exactly when a doi-typed identifier was
found (so `int` can raise there).  A summary with no doi-typed
identifier, or whose first doi-typed identifier has a missing or empty
value, yields no record. -/
def extractDoiYear (ws : WorkSummary) : Except String (Option Pub) :=
  match ws.externalIds.find? (fun e => e.idType == "doi") with
  | none => .ok none
  | some e => do
    let year ← computeYear ws.pubDate
    match e.value with
    | some d => if d = "" then pure none else pure (some ⟨d, year⟩)
    | none => pure none

/-- Lines 101-116, for one work group: the summaries are scanned in
order and the first one yielding a record wins (`break`); later
summaries of the same group are ignored. -/
def processGroup : List WorkSummary → Except String (Option Pub)
  | [] => .ok none
  | ws :: rest => do
    match ← extractDoiYear ws with
    | some p => pure (some p)
    | none => processGroup rest

/-- Lines 101-116 over the whole `group` list: one record per group that
produced one, in group order. -/
def extractPublications : List (List WorkSummary) → Except String (List Pub)
  | [] => .ok []
  | g :: gs => do
    let p? ← processGroup g
    let rest ← extractPublications gs
    match p? with
    | some p => pure (p :: rest)
    | none => pure rest

/-! ### The year-descending stable sort -/

/-- Stable insertion for the descending-by-year sort: the inserted
record comes from earlier in discovery order than everything in the
list, so on an equal year it goes first. -/
def insertByYear (p : Pub) : List Pub → List Pub
  | [] => [p]
  | q :: r => if q.year ≤ p.year then p :: q :: r else q :: insertByYear p r

/-- Model of `publications_to_process.sort(key=lambda x: x.get("year")
or 0, reverse=True)`: Python's sort is stable, and `reverse=True` keeps
equal-key elements in their original order, so the result is the stable
descending-by-year ordering. -/
def sortByYearDesc : List Pub → List Pub
  | [] => []
  | p :: r => insertByYear p (sortByYearDesc r)

/-! ### The run function (`main`) -/

/-- `slugify` from `generate_orcid_bib.py`:
`re.sub(r'[^a-zA-Z0-9-_]', '_', text)`, characterwise. -/
def slugifyChar (c : Char) : Char :=
  if ('a' ≤ c ∧ c ≤ 'z') ∨ ('A' ≤ c ∧ c ≤ 'Z') ∨ ('0' ≤ c ∧ c ≤ '9') ∨
      c = '-' ∨ c = '_' then c else '_'

/-- Filesystem-safe file name derived from a DOI. -/
def slugify (s : String) : String := String.mk (s.toList.map slugifyChar)

/-- Environment of one run: the outcome of the registry works query
(already JSON-decoded into groups of work summaries), the outcome of
the resolver request per DOI (the decoded response text), and the
current time. -/
structure Env where
  registry : Except String (List (List WorkSummary))
  resolver : String → Except String String
  now : ℚ

/-- One iteration of the download loop (lines 125-152) over the
accumulator (filesystem, collected entries, log): on resolver success
the cleaned text is written to the slugified individual file and
appended to `final_bib_entries`; on failure the identifier is logged
and skipped, and the loop continues. -/
def downloadStep (env : Env) (acc : FS × List String × List String) (p : Pub) :
    FS × List String × List String :=
  match env.resolver p.doi with
  | .ok raw =>
    let bib := String.mk (cleanup_bibtex_entry (stripChars raw.toList))
    (fsWrite acc.1 (BIB_SUBDIR ++ "/" ++ slugify p.doi ++ ".bib") bib env.now,
     acc.2.1 ++ [bib], acc.2.2)
  | .error e => (acc.1, acc.2.1, acc.2.2 ++ ["  Failed " ++ p.doi ++ ": " ++ e])

/-- `main` from `generate_orcid_bib.py` as a state transformer on the
filesystem, returning the new filesystem and the printed log lines.
Directory creation (`ensure_directories`) and the inter-request sleep
touch no files and are not modeled.  A registry failure or an extraction
error (both inside the outer `try`) reach the same handler: it only
creates an empty consolidated file when none exists.  On success the
consolidated file is rewritten with the blank-line—joined entries. -/
def runMain (env : Env) (fs : FS) : FS × List String :=
  if is_cache_valid fs env.now then
    (fs, ["CACHE HIT"])
  else
    match (do
        let works ← env.registry
        extractPublications works : Except String (List Pub)) with
    | .error e =>
      (if fsExists fs BIB_FILE then fs else fsWrite fs BIB_FILE "" env.now,
       ["Error: " ++ e])
    | .ok pubs =>
      let sorted := sortByYearDesc pubs
      let res := sorted.foldl (downloadStep env) (fs, [], [])
      (fsWrite res.1 BIB_FILE (String.intercalate "\n\n" res.2.1) env.now,
       res.2.2)

/-- The repaired texts of the identifiers whose resolver request
succeeds, in the order given. -/
def successEntries (env : Env) (l : List Pub) : List String :=
  l.filterMap (fun p =>
    match env.resolver p.doi with
    | .ok raw => some (String.mk (cleanup_bibtex_entry (stripChars raw.toList)))
    | .error _ => none)

/-! ### `post_process.py` -/

/-- Case-insensitive character comparison (`re.IGNORECASE`). -/
def lowEq (a b : Char) : Bool := a.toLower == b.toLower

/-- Case-insensitive literal prefix test. -/
def prefixCI : List Char → List Char → Bool
  | [], _ => true
  | _ :: _, [] => false
  | p :: ps, c :: cs => lowEq p c && prefixCI ps cs

/-- Python `\w`, restricted to ASCII: letters, digits, underscore. -/
def isWordChar (c : Char) : Bool := c.isAlphanum || c == '_'

/-- Split at the first occurrence of character `t`: the part before it
(free of `t`) and the part after it. -/
def splitAtChar (t : Char) : List Char → Option (List Char × List Char)
  | [] => none
  | c :: r =>
    if c == t then some ([], r)
    else (splitAtChar t r).map (fun pr => (c :: pr.1, pr.2))

/-- The literal `csl-entry` (matched case-insensitively). -/
def cslEntryChars : List Char := ['c', 's', 'l', '-', 'e', 'n', 't', 'r', 'y']

/-- Does `\bcsl-entry\b` match somewhere?  `prev` records whether the
character before the current position is a word character (the scan
starts just after the opening quote of the class attribute, a non-word
character).  The trailing boundary at the end of the region holds
because the closing quote follows. -/
def hasCslEntry : Bool → List Char → Bool
  | _, [] => false
  | prev, c :: rest =>
    (!prev && prefixCI cslEntryChars (c :: rest) &&
      (match (c :: rest).drop 9 with
       | [] => true
       | d :: _ => !isWordChar d)) ||
    hasCslEntry (isWordChar c) rest

/-- First index (case-insensitive) at which `pat` occurs, if any. -/
def findCI (pat : List Char) : List Char → Option Nat
  | [] => none
  | c :: rest =>
    if prefixCI pat (c :: rest) then some 0 else (findCI pat rest).map (· + 1)

/-- The literal `<div` of `entry_pattern`. -/
def divOpenChars : List Char := ['<', 'd', 'i', 'v']

/-- The literal `</div>` of `entry_pattern`. -/
def divCloseChars : List Char := ['<', '/', 'd', 'i', 'v', '>']

/-- The literal `class="` of `entry_pattern`. -/
def classEqChars : List Char := ['c', 'l', 'a', 's', 's', '=', '"']

/-- Attempt `group(1)` with a fixed length `a` for the greedy `[^>]*`
between `<div` and `class="`.  The quoted region runs to the first `"`
(both `[^"]*` parts exclude it) and must contain a word-bounded
`csl-entry`; the trailing `[^>]*>` runs to the first `>` after the
closing quote.  On success, returns the total length of `group(1)`. -/
def attemptG1 (rest : List Char) (a : Nat) : Option Nat :=
  let l₂ := rest.drop a
  if prefixCI classEqChars l₂ then
    match splitAtChar '"' (l₂.drop 7) with
    | none => none
    | some (q, afterQ) =>
      if hasCslEntry false q then
        match splitAtChar '>' afterQ with
        | none => none
        | some (cpart, _) => some (4 + a + 7 + q.length + 1 + cpart.length + 1)
      else none
  else none

/-- Attempt the whole pattern with a fixed `a`: `group(1)` followed by
the non-greedy `(.*?)` up to the earliest later `</div>`.  Returns the
lengths of `group(1)` and `group(2)`. -/
def attemptA (l rest : List Char) (a : Nat) : Option (Nat × Nat) :=
  match attemptG1 rest a with
  | none => none
  | some g1 =>
    match findCI divCloseChars (l.drop g1) with
    | none => none
    | some i => some (g1, i)

/-- Backtracking over the length `a` of the greedy `[^>]*`, longest
first, as the regex engine does. -/
def tryAs (l rest : List Char) : Nat → Option (Nat × Nat)
  | 0 => attemptA l rest 0
  | a + 1 =>
    match attemptA l rest (a + 1) with
    | some r => some r
    | none => tryAs l rest a

/-- Match of `entry_pattern` from `process_content` at the start of `l`:
`(<div[^>]*class="[^"]*\bcsl-entry\b[^"]*"[^>]*>)(.*?)(</div>)`, with
DOTALL and IGNORECASE.  Returns the lengths of `group(1)` and
`group(2)`; `group(3)` always has length 6.  The greedy `[^>]*` is
tried from its longest feasible length (the run of non-`>` characters
after `<div`) down to 0. -/
def matchEntryAt (l : List Char) : Option (Nat × Nat) :=
  if prefixCI divOpenChars l then
    tryAs l (l.drop 4) ((l.drop 4).takeWhile (fun c => c != '>')).length
  else none

/-- The literal `Maus` (case-sensitive). -/
def mausChars : List Char := ['M', 'a', 'u', 's']

/-- The replacement `<strong>Maus</strong>`. -/
def strongMausChars : List Char :=
  ['<', 's', 't', 'r', 'o', 'n', 'g', '>', 'M', 'a', 'u', 's',
   '<', '/', 's', 't', 'r', 'o', 'n', 'g', '>']

/-- The lookahead body `[^<]*>`: scanning forward, a `>` is reached
before any `<` (and before the end). -/
def tagEndAhead : List Char → Bool
  | [] => false
  | c :: r => if c == '>' then true else if c == '<' then false else tagEndAhead r

/-- Fueled model of `re.sub(r'Maus(?![^<]*>)', '<strong>Maus</strong>', ·)`
(case-sensitive): replace every leftmost occurrence of `Maus` that is
not followed by `[^<]*>`, continuing after each match. -/
def boldMausF : Nat → List Char → List Char
  | 0, l => l
  | _ + 1, [] => []
  | fuel + 1, c :: rest =>
    if mausChars.isPrefixOf (c :: rest) && !tagEndAhead (rest.drop 3) then
      strongMausChars ++ boldMausF fuel (rest.drop 3)
    else
      c :: boldMausF fuel rest

/-- The `STEP 1` substitution of `modify_entry`. -/
def boldMaus (l : List Char) : List Char := boldMausF l.length l

/-- Fueled model of `entry_pattern.sub(modify_entry, ·)`: scan left to
right; at each leftmost match keep `group(1)` and `group(3)` verbatim,
apply the Maus bolding to `group(2)`, and continue after the match. -/
def subEntriesF : Nat → List Char → List Char
  | 0, l => l
  | _ + 1, [] => []
  | fuel + 1, c :: rest =>
    match matchEntryAt (c :: rest) with
    | some (g1, g2) =>
      (c :: rest).take g1 ++ boldMaus (((c :: rest).drop g1).take g2) ++
        ((c :: rest).drop (g1 + g2)).take 6 ++
        subEntriesF fuel ((c :: rest).drop (g1 + g2 + 6))
    | none => c :: subEntriesF fuel rest

/-- `process_content` from `post_process.py`. -/
def process_content (l : List Char) : List Char := subEntriesF l.length l

/-- Does `entry_pattern` match anywhere in the page? -/
def hasEntryMatch : List Char → Bool
  | [] => false
  | c :: rest => (matchEntryAt (c :: rest)).isSome || hasEntryMatch rest

/-- `t` is obtained from `s` by rewriting some occurrences of `Maus` to
`<strong>Maus</strong>` and changing nothing else. -/
inductive OnlyMausBold : List Char → List Char → Prop
  | nil : OnlyMausBold [] []
  | cons (c : Char) {s t : List Char} : OnlyMausBold s t →
      OnlyMausBold (c :: s) (c :: t)
  | bold {s t : List Char} : OnlyMausBold s t →
      OnlyMausBold (mausChars ++ s) (strongMausChars ++ t)

/-! ## The staleness gate (C2) -/

/-- C2: given a consolidated file with modification time `t`, the gate
answers "fresh" for every check time in `[t, t + 24h)`, "stale" at or
after `t + 24h`, and "stale" whenever the file is absent.  The gate is
a pure predicate of the filesystem and the clock. -/
theorem C2_staleness_gate (content : String) (t now : ℚ) (fs : FS) :
    (t ≤ now → now < t + 86400 → is_cache_valid [(BIB_FILE, content, t)] now = true) ∧
    (t + 86400 ≤ now → is_cache_valid [(BIB_FILE, content, t)] now = false) ∧
    (fsExists fs BIB_FILE = false → is_cache_valid fs now = false) := by
  have hlk : fsLookup [(BIB_FILE, content, t)] BIB_FILE = some (content, t) := by
    simp [fsLookup]
  refine ⟨fun h1 h2 => ?_, fun h => ?_, fun h => ?_⟩
  · simp only [is_cache_valid, hlk, CACHE_DURATION_HOURS, decide_eq_true_eq]
    linarith
  · simp only [is_cache_valid, hlk, CACHE_DURATION_HOURS,
      decide_eq_false_iff_not, not_lt]
    linarith
  · have hnone : fsLookup fs BIB_FILE = none := by
      rcases hl : fsLookup fs BIB_FILE with _ | e
      · rfl
      · rw [fsExists, hl] at h
        simp at h
    simp [is_cache_valid, hnone]

/-- Witness for C2 at `t = 0`, checked at times `100` and `86400`. -/
theorem C2_staleness_gate_witness :
    is_cache_valid [(BIB_FILE, "x", (0 : ℚ))] 100 = true ∧
    is_cache_valid [(BIB_FILE, "x", (0 : ℚ))] 86400 = false ∧
    is_cache_valid [] 86400 = false :=
  ⟨(C2_staleness_gate "x" 0 100 []).1 (by norm_num) (by norm_num),
   (C2_staleness_gate "x" 0 86400 []).2.1 (by norm_num),
   (C2_staleness_gate "x" 0 86400 []).2.2 (by rfl)⟩

/-! ## The year-descending stable sort (C7) -/

theorem insertByYear_perm (p : Pub) (l : List Pub) :
    List.Perm (insertByYear p l) (p :: l) := by
  induction l with
  | nil => rfl
  | cons q r ih =>
    by_cases h : q.year ≤ p.year
    · simp [insertByYear, h]
    · simp only [insertByYear, if_neg h]
      exact (ih.cons q).trans (List.Perm.swap p q r)

theorem sortByYearDesc_perm (l : List Pub) : List.Perm (sortByYearDesc l) l := by
  induction l with
  | nil => rfl
  | cons p r ih => exact (insertByYear_perm p _).trans (ih.cons p)

theorem insertByYear_pairwise {l : List Pub} (p : Pub)
    (h : l.Pairwise (fun a b => b.year ≤ a.year)) :
    (insertByYear p l).Pairwise (fun a b => b.year ≤ a.year) := by
  induction l with
  | nil => simp [insertByYear]
  | cons q r ih =>
    rcases List.pairwise_cons.1 h with ⟨hq, hr⟩
    by_cases hy : q.year ≤ p.year
    · simp only [insertByYear, if_pos hy]
      refine List.pairwise_cons.2 ⟨?_, h⟩
      intro x hx
      rcases List.mem_cons.1 hx with rfl | hx'
      · exact hy
      · exact le_trans (hq x hx') hy
    · simp only [insertByYear, if_neg hy]
      refine List.pairwise_cons.2 ⟨?_, ih hr⟩
      intro x hx
      have hx2 : x = p ∨ x ∈ r := by
        simpa using (insertByYear_perm p r).mem_iff.1 hx
      rcases hx2 with rfl | hx'
      · exact le_of_lt (lt_of_not_le hy)
      · exact hq x hx'

theorem sortByYearDesc_pairwise (l : List Pub) :
    (sortByYearDesc l).Pairwise (fun a b => b.year ≤ a.year) := by
  induction l with
  | nil => simp [sortByYearDesc]
  | cons p r ih => exact insertByYear_pairwise p ih

theorem filter_insertByYear (p : Pub) (l : List Pub) (y : Int) :
    (insertByYear p l).filter (fun q => q.year == y) =
      if p.year = y then p :: l.filter (fun q => q.year == y)
      else l.filter (fun q => q.year == y) := by
  induction l with
  | nil => by_cases h : p.year = y <;> simp [insertByYear, h]
  | cons q r ih =>
    by_cases hy : q.year ≤ p.year
    · rw [insertByYear, if_pos hy]
      by_cases h : p.year = y <;> by_cases hq : q.year = y <;>
        simp [List.filter_cons, h, hq]
    · have hpq : p.year < q.year := lt_of_not_le hy
      rw [insertByYear, if_neg hy]
      by_cases h : p.year = y
      · have hqy : ¬ q.year = y := by omega
        rw [if_pos h]
        simp [List.filter_cons, hqy, ih, if_pos h]
      · rw [if_neg h]
        by_cases hqy : q.year = y <;>
          simp [List.filter_cons, hqy, ih, if_neg h]

theorem sortByYearDesc_stable (l : List Pub) (y : Int) :
    (sortByYearDesc l).filter (fun q => q.year == y) =
      l.filter (fun q => q.year == y) := by
  induction l with
  | nil => rfl
  | cons p r ih =>
    rw [sortByYearDesc, filter_insertByYear]
    by_cases h : p.year = y
    · rw [if_pos h, ih, List.filter_cons, if_pos (by simpa using h)]
    · rw [if_neg h, ih, List.filter_cons, if_neg (by simpa using h)]

/-- C7: the sort is a permutation ordered by year descending; it is
stable (for every year, the equal-year records appear exactly in their
discovery order); and when every record's year is non-negative (0 being
the unknown-year sentinel, real years being positive), the unknown-year
records end up last. -/
theorem C7_sort_stable_desc (l : List Pub) :
    List.Perm (sortByYearDesc l) l ∧
    (sortByYearDesc l).Pairwise (fun a b => b.year ≤ a.year) ∧
    (∀ y : Int, (sortByYearDesc l).filter (fun q => q.year == y) =
      l.filter (fun q => q.year == y)) ∧
    ((∀ p ∈ l, 0 ≤ p.year) →
      (sortByYearDesc l).Pairwise (fun a b => a.year = 0 → b.year = 0)) := by
  refine ⟨sortByYearDesc_perm l, sortByYearDesc_pairwise l,
    fun y => sortByYearDesc_stable l y, fun h => ?_⟩
  refine List.Pairwise.imp_of_mem ?_ (sortByYearDesc_pairwise l)
  intro a b _ hb hab h0
  have hb2 : 0 ≤ b.year := h b ((sortByYearDesc_perm l).subset hb)
  omega

/-- Witness for C7 on a concrete record list with ties and zeros. -/
theorem C7_sort_stable_desc_witness :
    (∀ p ∈ ([⟨"a", 2019⟩, ⟨"b", 0⟩, ⟨"c", 2021⟩, ⟨"d", 2019⟩, ⟨"e", 0⟩] :
        List Pub), 0 ≤ p.year) ∧
    (sortByYearDesc [⟨"a", 2019⟩, ⟨"b", 0⟩, ⟨"c", 2021⟩, ⟨"d", 2019⟩, ⟨"e", 0⟩]).Pairwise
      (fun a b => a.year = 0 → b.year = 0) :=
  ⟨by decide, (C7_sort_stable_desc _).2.2.2 (by decide)⟩

/-! ## First-DOI extraction (C8) -/

/-- C8: for a work summary, the first doi-typed external identifier is
the one used — the scan stops there, so everything after it is ignored —
and a summary none of whose identifiers is doi-typed produces no record
at all (the group scan just moves on). -/
theorem C8_first_doi_wins (pre post ids : List ExternalId) (e : ExternalId)
    (pd : Option PubDate) (rest : List WorkSummary)
    (hpre : ∀ x ∈ pre, x.idType ≠ "doi") (he : e.idType = "doi")
    (hids : ∀ x ∈ ids, x.idType ≠ "doi") :
    extractDoiYear ⟨pre ++ e :: post, pd⟩ = extractDoiYear ⟨[e], pd⟩ ∧
    extractDoiYear ⟨ids, pd⟩ = .ok none ∧
    processGroup (⟨ids, pd⟩ :: rest) = processGroup rest := by
  have hfpre : pre.find? (fun x => x.idType == "doi") = none :=
    List.find?_eq_none.2 fun x hx => by simp [hpre x hx]
  have hfids : ids.find? (fun x => x.idType == "doi") = none :=
    List.find?_eq_none.2 fun x hx => by simp [hids x hx]
  have hfe : (e :: post).find? (fun x => x.idType == "doi") = some e :=
    List.find?_cons_of_pos _ (by simp [he])
  have h2 : extractDoiYear ⟨ids, pd⟩ = .ok none := by
    simp only [extractDoiYear, hfids]
  refine ⟨?_, h2, ?_⟩
  · simp only [extractDoiYear, List.find?_append, hfpre, hfe, Option.none_or]
    simp [List.find?_cons_of_pos, he]
  · rw [processGroup, h2]
    rfl

/-- Witness for C8 on concrete identifier lists. -/
theorem C8_first_doi_wins_witness :
    extractDoiYear ⟨[⟨"issn", some "123"⟩, ⟨"doi", some "D1"⟩,
        ⟨"doi", some "D2"⟩], none⟩ =
      extractDoiYear ⟨[⟨"doi", some "D1"⟩], none⟩ ∧
    extractDoiYear ⟨[⟨"issn", some "123"⟩], none⟩ = .ok none ∧
    processGroup [⟨[⟨"issn", some "123"⟩], none⟩] = processGroup [] :=
  C8_first_doi_wins [⟨"issn", some "123"⟩] [⟨"doi", some "D2"⟩]
    [⟨"issn", some "123"⟩] ⟨"doi", some "D1"⟩ none []
    (by decide) rfl (by decide)

/-! ## Year parsing (C3) -/

/-- A work summary carrying a well-formed DOI and a non-empty,
non-integer year value. -/
def badYearSummary : WorkSummary :=
  ⟨[⟨"doi", some "10.1/x"⟩], some ⟨some ⟨some "20xx"⟩⟩⟩

/-- An environment whose registry returns `badYearSummary` and whose
resolver would succeed for every identifier. -/
def badYearEnv : Env :=
  { registry := Except.ok [[badYearSummary]]
    resolver := fun _ => Except.ok "entry"
    now := 0 }

/-- Counterexample to C3: a work whose doi is extracted but whose year
value is `"20xx"` (non-empty, not an integer) does not yield a record
with year 0.  Instead `int` raises, the error escapes the extraction,
and the whole refresh aborts through the outer handler: the run leaves
only an empty consolidated file although every resolver request would
have succeeded. -/
theorem C3_counterexample :
    extractDoiYear badYearSummary =
      Except.error "invalid literal for int with base 10: 20xx" ∧
    extractDoiYear badYearSummary ≠ Except.ok (some ⟨"10.1/x", 0⟩) ∧
    runMain badYearEnv [] =
      ([(BIB_FILE, "", 0)],
       ["Error: invalid literal for int with base 10: 20xx"]) := by
  refine ⟨rfl, ?_, rfl⟩
  intro h
  rw [show extractDoiYear badYearSummary =
    Except.error "invalid literal for int with base 10: 20xx" from rfl] at h
  exact Except.noConfusion h

/-- C3 as amended: the year defaults to 0 exactly when the publication
date, its year substructure, or the year value is absent, or the value
is the empty string; a present parseable value is converted; but a
non-empty unparseable value raises an error, which aborts the whole
refresh (see `C3_counterexample`) instead of defaulting to 0. -/
theorem C3_amended (v : String) (n : Int) :
    computeYear none = .ok 0 ∧
    computeYear (some ⟨none⟩) = .ok 0 ∧
    computeYear (some ⟨some ⟨none⟩⟩) = .ok 0 ∧
    computeYear (some ⟨some ⟨some ""⟩⟩) = .ok 0 ∧
    (pyInt v = some n → computeYear (some ⟨some ⟨some v⟩⟩) = .ok n) ∧
    (v ≠ "" → pyInt v = none →
      computeYear (some ⟨some ⟨some v⟩⟩) =
        .error ("invalid literal for int with base 10: " ++ v)) := by
  refine ⟨rfl, rfl, rfl, rfl, fun h => ?_, fun hne h => ?_⟩
  · have hv : v ≠ "" := by
      intro he
      rw [he] at h
      rw [show pyInt "" = none from rfl] at h
      exact Option.noConfusion h
    simp only [computeYear, if_neg hv, h]
  · simp only [computeYear, if_neg hne, h]

/-- Witness for C3's amended form at `"2020"` and `"20xx"`. -/
theorem C3_amended_witness :
    computeYear (some ⟨some ⟨some "2020"⟩⟩) = .ok 2020 ∧
    computeYear (some ⟨some ⟨some "20xx"⟩⟩) =
      .error ("invalid literal for int with base 10: " ++ "20xx") :=
  ⟨(C3_amended "2020" 2020).2.2.2.2.1 (by rfl),
   (C3_amended "20xx" 0).2.2.2.2.2 (by decide) (by rfl)⟩

/-! ## NFKC versus the spec's NFC (C4) -/

/-- Counterexample to C4: the source normalizes with NFKC, not NFC.  On
`º` — a well-formed character with its own entry in the repair table —
the NFC-based repair the claim describes produces the degree escape,
while the code's NFKC normalization first collapses `º` to the plain
letter `o` (a compatibility, non-canonical collapse that the claim says
does not happen), so the table entry never fires and the two results
differ. -/
theorem C4_counterexample :
    cleanup_bibtex_entry ['º'] = ['o'] ∧
    applyLatexMap (nfc ['º']) = ['^', '{', '\\', 'c', 'i', 'r', 'c', '}'] ∧
    cleanup_bibtex_entry ['º'] ≠ applyLatexMap (nfc ['º']) ∧
    cleanup_bibtex_entry ['º'] = cleanup_bibtex_entry ['o'] := by
  decide

/-- C4 as amended: the repair equals the ordered substitutions applied
to the NFKC (compatibility composed) normalization of the input;
canonically-equivalent representations of the same character collapse
before substitution, and characters differing only by compatibility
equivalence collapse as well. -/
theorem C4_amended :
    (∀ l : List Char, cleanup_bibtex_entry l = applyLatexMap (nfkc l)) ∧
    cleanup_bibtex_entry ['e', Char.ofNat 0x301] = cleanup_bibtex_entry ['é'] ∧
    cleanup_bibtex_entry ['º'] = cleanup_bibtex_entry ['o'] :=
  ⟨fun _ => rfl, by decide, by decide⟩

/-! ## The run function: failure handling and the master write (C5, C6, C10) -/

theorem fsLookup_fsWrite_self (fs : FS) (p c : String) (t : ℚ) :
    fsLookup (fsWrite fs p c t) p = some (c, t) := by
  simp [fsLookup, fsWrite]

theorem find?_filter_ne (p q : String) (h : q ≠ p) : ∀ fs : FS,
    (fs.filter (fun e => e.1 != p)).find? (fun e => e.1 == q) =
      fs.find? (fun e => e.1 == q)
  | [] => rfl
  | e :: fs => by
    by_cases hep : e.1 = p
    · rw [List.filter_cons_of_neg (by simp [hep])]
      rw [find?_filter_ne p q h fs]
      rw [List.find?_cons_of_neg _ (by simp [hep]; exact fun hq => h hq.symm)]
    · rw [List.filter_cons_of_pos (by simp [hep])]
      by_cases heq : e.1 = q
      · rw [List.find?_cons_of_pos _ (by simp [heq]),
          List.find?_cons_of_pos _ (by simp [heq])]
      · rw [List.find?_cons_of_neg _ (by simp [heq]),
          List.find?_cons_of_neg _ (by simp [heq])]
        exact find?_filter_ne p q h fs

theorem fsLookup_fsWrite_ne (fs : FS) (p q c : String) (t : ℚ) (h : q ≠ p) :
    fsLookup (fsWrite fs p c t) q = fsLookup fs q := by
  simp only [fsLookup, fsWrite]
  rw [List.find?_cons_of_neg _ (by simp; exact fun hq => h hq.symm)]
  rw [find?_filter_ne p q h fs]

theorem downloadLoop_entries (env : Env) : ∀ (l : List Pub) (fs : FS)
    (es lg : List String),
    (l.foldl (downloadStep env) (fs, es, lg)).2.1 = es ++ successEntries env l
  | [], fs, es, lg => by simp [successEntries]
  | p :: l, fs, es, lg => by
    rw [List.foldl_cons]
    cases hr : env.resolver p.doi with
    | error err =>
      simp only [downloadStep, hr]
      rw [downloadLoop_entries env l]
      simp [successEntries, List.filterMap_cons, hr]
    | ok raw =>
      simp only [downloadStep, hr]
      rw [downloadLoop_entries env l]
      simp [successEntries, List.filterMap_cons, hr]

theorem downloadLoop_log_mono (env : Env) : ∀ (l : List Pub) (fs : FS)
    (es lg : List String) (x : String), x ∈ lg →
    x ∈ (l.foldl (downloadStep env) (fs, es, lg)).2.2
  | [], _, _, _, _, hx => hx
  | p :: l, fs, es, lg, x, hx => by
    rw [List.foldl_cons]
    cases hr : env.resolver p.doi with
    | error err =>
      simp only [downloadStep, hr]
      exact downloadLoop_log_mono env l _ _ _ x (List.mem_append_left _ hx)
    | ok raw =>
      simp only [downloadStep, hr]
      exact downloadLoop_log_mono env l _ _ _ x hx

theorem downloadLoop_log_failed (env : Env) : ∀ (l : List Pub) (fs : FS)
    (es lg : List String) (p : Pub) (e : String), p ∈ l →
    env.resolver p.doi = .error e →
    ("  Failed " ++ p.doi ++ ": " ++ e) ∈ (l.foldl (downloadStep env) (fs, es, lg)).2.2
  | [], _, _, _, p, _, hp, _ => absurd hp (List.not_mem_nil p)
  | q :: l, fs, es, lg, p, e, hp, hr => by
    rcases List.mem_cons.1 hp with rfl | hp2
    · rw [List.foldl_cons]
      simp only [downloadStep, hr]
      exact downloadLoop_log_mono env l _ _ _ _ (by simp)
    · rw [List.foldl_cons]
      exact downloadLoop_log_failed env l _ _ _ p e hp2 hr

/-- The success path of `runMain`, written out: after the download loop,
the consolidated file is unconditionally rewritten with the blank-line
join of the successfully repaired entries, in sorted order. -/
theorem runMain_ok (env : Env) (fs : FS) (works : List (List WorkSummary))
    (pubs : List Pub) (hstale : is_cache_valid fs env.now = false)
    (hreg : env.registry = .ok works)
    (hext : extractPublications works = .ok pubs) :
    runMain env fs =
      (fsWrite ((sortByYearDesc pubs).foldl (downloadStep env) (fs, [], [])).1
        BIB_FILE
        (String.intercalate "\n\n" (successEntries env (sortByYearDesc pubs)))
        env.now,
       ((sortByYearDesc pubs).foldl (downloadStep env) (fs, [], [])).2.2) := by
  have hdo : (do
      let works ← env.registry
      extractPublications works : Except String (List Pub)) = .ok pubs := by
    rw [hreg]
    exact hext
  rw [show runMain env fs = if is_cache_valid fs env.now then (fs, ["CACHE HIT"])
    else match (do
        let works ← env.registry
        extractPublications works : Except String (List Pub)) with
    | .error e =>
      (if fsExists fs BIB_FILE then fs else fsWrite fs BIB_FILE "" env.now,
       ["Error: " ++ e])
    | .ok pubs =>
      (fsWrite ((sortByYearDesc pubs).foldl (downloadStep env) (fs, [], [])).1
        BIB_FILE
        (String.intercalate "\n\n"
          ((sortByYearDesc pubs).foldl (downloadStep env) (fs, [], [])).2.1)
        env.now,
       ((sortByYearDesc pubs).foldl (downloadStep env) (fs, [], [])).2.2) from rfl]
  rw [hstale, hdo]
  simp only [Bool.false_eq_true, if_false]
  rw [downloadLoop_entries env (sortByYearDesc pubs) fs [] []]
  rw [List.nil_append]

/-- The failure path of `runMain`: a registry (or extraction) error goes
to the handler, which only creates an empty consolidated file when none
exists. -/
theorem runMain_error (env : Env) (fs : FS) (msg : String)
    (hstale : is_cache_valid fs env.now = false)
    (hreg : env.registry = .error msg) :
    runMain env fs =
      (if fsExists fs BIB_FILE then fs else fsWrite fs BIB_FILE "" env.now,
       ["Error: " ++ msg]) := by
  have hdo : (do
      let works ← env.registry
      extractPublications works : Except String (List Pub)) = .error msg := by
    rw [hreg]
    rfl
  rw [show runMain env fs = if is_cache_valid fs env.now then (fs, ["CACHE HIT"])
    else match (do
        let works ← env.registry
        extractPublications works : Except String (List Pub)) with
    | .error e =>
      (if fsExists fs BIB_FILE then fs else fsWrite fs BIB_FILE "" env.now,
       ["Error: " ++ e])
    | .ok pubs =>
      (fsWrite ((sortByYearDesc pubs).foldl (downloadStep env) (fs, [], [])).1
        BIB_FILE
        (String.intercalate "\n\n"
          ((sortByYearDesc pubs).foldl (downloadStep env) (fs, [], [])).2.1)
        env.now,
       ((sortByYearDesc pubs).foldl (downloadStep env) (fs, [], [])).2.2) from rfl]
  rw [hstale, hdo]
  simp only [Bool.false_eq_true, if_false]

/-- C5: when the refresh actually runs (stale cache) and the registry
query fails, no file is written, except that an empty consolidated file
is created when none exists; an existing consolidated file is left
untouched, and afterwards the consolidated file always exists. -/
theorem C5_registry_failure (env : Env) (fs : FS) (msg : String)
    (hstale : is_cache_valid fs env.now = false)
    (hreg : env.registry = .error msg) :
    ((runMain env fs).1 =
      if fsExists fs BIB_FILE then fs else fsWrite fs BIB_FILE "" env.now) ∧
    fsExists (runMain env fs).1 BIB_FILE = true ∧
    (∀ p : String, p ≠ BIB_FILE → fsLookup (runMain env fs).1 p = fsLookup fs p) ∧
    (fsExists fs BIB_FILE = true → (runMain env fs).1 = fs) := by
  have hrm := runMain_error env fs msg hstale hreg
  rw [hrm]
  refine ⟨rfl, ?_, ?_, ?_⟩
  · cases hex : fsExists fs BIB_FILE with
    | true => simp [hex]
    | false =>
      simp only [hex, if_false, Bool.false_eq_true]
      rw [fsExists, fsLookup_fsWrite_self]
      rfl
  · intro p hp
    cases hex : fsExists fs BIB_FILE with
    | true => simp [hex]
    | false =>
      simp only [hex, if_false, Bool.false_eq_true]
      exact fsLookup_fsWrite_ne fs BIB_FILE p "" env.now hp
  · intro hex
    simp [hex]

/-- A concrete environment whose registry query fails. -/
def failEnv : Env :=
  { registry := Except.error "boom"
    resolver := fun _ => Except.ok "entry"
    now := 0 }

/-- Witness for C5 on an empty filesystem. -/
theorem C5_registry_failure_witness :
    ((runMain failEnv []).1 =
      if fsExists [] BIB_FILE then ([] : FS) else fsWrite [] BIB_FILE "" failEnv.now) ∧
    fsExists (runMain failEnv []).1 BIB_FILE = true ∧
    (∀ p : String, p ≠ BIB_FILE →
      fsLookup (runMain failEnv []).1 p = fsLookup ([] : FS) p) ∧
    (fsExists ([] : FS) BIB_FILE = true → (runMain failEnv []).1 = ([] : FS)) :=
  C5_registry_failure failEnv [] "boom" (by rfl) rfl

/-- C6: on a stale cache with a successful registry query, a resolver
failure for a single identifier only removes that identifier's entry:
the consolidated file ends up holding exactly the repaired texts of the
successful identifiers, in sorted order, joined by a blank line, and
every failed identifier leaves a logged failure line while the run
completes normally. -/
theorem C6_partial_failure (env : Env) (fs : FS) (works : List (List WorkSummary))
    (pubs : List Pub) (hstale : is_cache_valid fs env.now = false)
    (hreg : env.registry = .ok works)
    (hext : extractPublications works = .ok pubs) :
    fsLookup (runMain env fs).1 BIB_FILE =
      some (String.intercalate "\n\n" (successEntries env (sortByYearDesc pubs)),
        env.now) ∧
    (∀ p ∈ sortByYearDesc pubs, ∀ e, env.resolver p.doi = .error e →
      ("  Failed " ++ p.doi ++ ": " ++ e) ∈ (runMain env fs).2) := by
  rw [runMain_ok env fs works pubs hstale hreg hext]
  exact ⟨fsLookup_fsWrite_self _ _ _ _,
    fun p hp e he => downloadLoop_log_failed env _ _ _ _ p e hp he⟩

/-- C10: when the registry query succeeds, the consolidated file is
unconditionally rewritten at the end of the run; if every resolver
request fails (or no work carried a DOI), it becomes empty, and any
previously cached content is lost. -/
theorem C10_unconditional_overwrite (env : Env) (fs : FS)
    (works : List (List WorkSummary)) (pubs : List Pub)
    (hstale : is_cache_valid fs env.now = false)
    (hreg : env.registry = .ok works)
    (hext : extractPublications works = .ok pubs)
    (hfail : ∀ p ∈ pubs, ∃ e, env.resolver p.doi = .error e) :
    fsLookup (runMain env fs).1 BIB_FILE = some ("", env.now) := by
  have hse : successEntries env (sortByYearDesc pubs) = [] := by
    rw [successEntries, List.filterMap_eq_nil_iff]
    intro p hp
    rcases hfail p ((sortByYearDesc_perm pubs).subset hp) with ⟨e, he⟩
    simp [he]
  rw [runMain_ok env fs works pubs hstale hreg hext]
  rw [fsLookup_fsWrite_self, hse]
  rfl

/-- A concrete environment: three works with years 2020, 2019 and 2021,
and a resolver that fails (HTTP 500) exactly for the 2019 identifier. -/
def partialEnv : Env :=
  { registry := Except.ok
      [[⟨[⟨"doi", some "10.1/a"⟩], some ⟨some ⟨some "2020"⟩⟩⟩],
       [⟨[⟨"doi", some "10.2/b"⟩], some ⟨some ⟨some "2019"⟩⟩⟩],
       [⟨[⟨"doi", some "10.3/c"⟩], some ⟨some ⟨some "2021"⟩⟩⟩]]
    resolver := fun d =>
      if d = "10.2/b" then Except.error "500" else Except.ok ("entry " ++ d)
    now := 100000 }

/-- A filesystem holding a stale consolidated file with earlier content. -/
def stalePriorFs : FS := [(BIB_FILE, "old", 0)]

/-- Witness for C6: one failure out of three identifiers. -/
theorem C6_partial_failure_witness :
    fsLookup (runMain partialEnv stalePriorFs).1 BIB_FILE =
      some (String.intercalate "\n\n" (successEntries partialEnv
          (sortByYearDesc [⟨"10.1/a", 2020⟩, ⟨"10.2/b", 2019⟩, ⟨"10.3/c", 2021⟩])),
        partialEnv.now) ∧
    (∀ p ∈ sortByYearDesc [⟨"10.1/a", 2020⟩, ⟨"10.2/b", 2019⟩, ⟨"10.3/c", 2021⟩],
      ∀ e, partialEnv.resolver p.doi = .error e →
      ("  Failed " ++ p.doi ++ ": " ++ e) ∈ (runMain partialEnv stalePriorFs).2) :=
  C6_partial_failure partialEnv stalePriorFs _ _
    (by simp [is_cache_valid, fsLookup, stalePriorFs, CACHE_DURATION_HOURS]
        norm_num [partialEnv])
    rfl (by rfl)

/-- A concrete environment in which every resolver request fails. -/
def allFailEnv : Env :=
  { registry := Except.ok
      [[⟨[⟨"doi", some "10.1/a"⟩], some ⟨some ⟨some "2020"⟩⟩⟩],
       [⟨[⟨"doi", some "10.2/b"⟩], some ⟨some ⟨some "2019"⟩⟩⟩]]
    resolver := fun _ => Except.error "500"
    now := 100000 }

/-- Witness for C10: every resolver request fails, and the previously
cached consolidated content is replaced by an empty file. -/
theorem C10_unconditional_overwrite_witness :
    fsLookup (runMain allFailEnv stalePriorFs).1 BIB_FILE =
      some ("", allFailEnv.now) :=
  C10_unconditional_overwrite allFailEnv stalePriorFs _ _
    (by simp [is_cache_valid, fsLookup, stalePriorFs, CACHE_DURATION_HOURS]
        norm_num [allFailEnv])
    rfl (by rfl) (fun p _ => ⟨"500", rfl⟩)

/-! ## HTML post-processing is a frame transformation (C9) -/

theorem prefixCI_length : ∀ (p l : List Char), prefixCI p l = true →
    p.length ≤ l.length
  | [], _, _ => Nat.zero_le _
  | p :: ps, [], h => by rw [prefixCI] at h; exact Bool.noConfusion h
  | p :: ps, c :: cs, h => by
    rw [prefixCI, Bool.and_eq_true] at h
    simpa [List.length_cons] using Nat.succ_le_succ (prefixCI_length ps cs h.2)

theorem findCI_bound (pat : List Char) : ∀ (l : List Char) (i : Nat),
    findCI pat l = some i → i + pat.length ≤ l.length
  | [], i, h => by rw [findCI] at h; exact Option.noConfusion h
  | c :: rest, i, h => by
    rw [findCI] at h
    by_cases hp : prefixCI pat (c :: rest) = true
    · rw [if_pos hp] at h
      cases h
      simpa using prefixCI_length pat (c :: rest) hp
    · rw [if_neg hp] at h
      cases hf : findCI pat rest with
      | none => rw [hf] at h; exact Option.noConfusion h
      | some j =>
        rw [hf] at h
        simp only [Option.map_some'] at h
        cases h
        have := findCI_bound pat rest j hf
        simp only [List.length_cons]
        omega

theorem attemptA_bound (l rest : List Char) (a g1 g2 : Nat)
    (h : attemptA l rest a = some (g1, g2)) : g1 + g2 + 6 ≤ l.length := by
  cases hg : attemptG1 rest a with
  | none =>
    simp only [attemptA, hg] at h
    exact Option.noConfusion h
  | some g1' =>
    cases hf : findCI divCloseChars (l.drop g1') with
    | none =>
      simp only [attemptA, hg, hf] at h
      exact Option.noConfusion h
    | some i =>
      simp only [attemptA, hg, hf, Option.some.injEq, Prod.mk.injEq] at h
      obtain ⟨rfl, rfl⟩ := h
      have := findCI_bound divCloseChars (l.drop g1') i hf
      rw [List.length_drop] at this
      have h6 : divCloseChars.length = 6 := rfl
      omega

theorem tryAs_bound (l rest : List Char) : ∀ (a g1 g2 : Nat),
    tryAs l rest a = some (g1, g2) → g1 + g2 + 6 ≤ l.length
  | 0, g1, g2, h => attemptA_bound l rest 0 g1 g2 (by rwa [tryAs] at h)
  | a + 1, g1, g2, h => by
    rw [tryAs] at h
    cases ha : attemptA l rest (a + 1) with
    | none =>
      simp only [ha] at h
      exact tryAs_bound l rest a g1 g2 h
    | some r =>
      obtain ⟨G1, G2⟩ := r
      simp only [ha, Option.some.injEq, Prod.mk.injEq] at h
      obtain ⟨rfl, rfl⟩ := h
      exact attemptA_bound l rest (a + 1) _ _ ha

theorem matchEntryAt_le {l : List Char} {g1 g2 : Nat}
    (h : matchEntryAt l = some (g1, g2)) : g1 + g2 + 6 ≤ l.length := by
  rw [matchEntryAt] at h
  by_cases hp : prefixCI divOpenChars l = true
  · rw [if_pos hp] at h
    exact tryAs_bound l (l.drop 4) _ g1 g2 h
  · rw [if_neg hp] at h
    exact Option.noConfusion h

theorem take_drop_decomp (l : List Char) (g1 g2 : Nat) :
    l = l.take g1 ++ (l.drop g1).take g2 ++ (l.drop (g1 + g2)).take 6 ++
      l.drop (g1 + g2 + 6) := by
  rw [List.append_assoc, List.append_assoc]
  conv_lhs => rw [← List.take_append_drop g1 l]
  congr 1
  conv_lhs => rw [← List.take_append_drop g2 (l.drop g1)]
  congr 1
  rw [List.drop_drop]
  conv_lhs => rw [← List.take_append_drop 6 (l.drop (g1 + g2))]
  rw [List.drop_drop]

theorem onlyMausBold_refl : ∀ l : List Char, OnlyMausBold l l
  | [] => .nil
  | c :: t => .cons c (onlyMausBold_refl t)

theorem onlyMausBold_append {a b c d : List Char} (h1 : OnlyMausBold a b)
    (h2 : OnlyMausBold c d) : OnlyMausBold (a ++ c) (b ++ d) := by
  induction h1 with
  | nil => exact h2
  | cons ch h ih => exact .cons ch ih
  | bold h ih =>
    rw [List.append_assoc, List.append_assoc]
    exact .bold ih

theorem boldMausF_only : ∀ (fuel : Nat) (l : List Char), l.length ≤ fuel →
    OnlyMausBold l (boldMausF fuel l)
  | 0, l, _ => onlyMausBold_refl l
  | _ + 1, [], _ => .nil
  | fuel + 1, c :: rest, h => by
    by_cases hm : (mausChars.isPrefixOf (c :: rest) && !tagEndAhead (rest.drop 3)) = true
    · rw [show boldMausF (fuel + 1) (c :: rest) =
        if mausChars.isPrefixOf (c :: rest) && !tagEndAhead (rest.drop 3) then
          strongMausChars ++ boldMausF fuel (rest.drop 3)
        else c :: boldMausF fuel rest from rfl, if_pos hm]
      rcases List.isPrefixOf_iff_prefix.1 (Bool.and_eq_true _ _ ▸ hm).1 with ⟨t, ht⟩
      have hteq : t = rest.drop 3 := by
        have h2 := congrArg (List.drop mausChars.length) ht
        rw [List.drop_left] at h2
        rw [show List.drop mausChars.length (c :: rest) = rest.drop 3 from rfl] at h2
        exact h2
      subst hteq
      rw [← ht]
      exact .bold (boldMausF_only fuel (rest.drop 3)
        (by simp only [List.length_drop]
            have := List.length_cons c rest ▸ h
            omega))
    · rw [show boldMausF (fuel + 1) (c :: rest) =
        if mausChars.isPrefixOf (c :: rest) && !tagEndAhead (rest.drop 3) then
          strongMausChars ++ boldMausF fuel (rest.drop 3)
        else c :: boldMausF fuel rest from rfl, if_neg hm]
      exact .cons c (boldMausF_only fuel rest
        (by have := List.length_cons c rest ▸ h; omega))

theorem boldMaus_only (l : List Char) : OnlyMausBold l (boldMaus l) :=
  boldMausF_only l.length l le_rfl

theorem subEntriesF_only : ∀ (fuel : Nat) (l : List Char), l.length ≤ fuel →
    OnlyMausBold l (subEntriesF fuel l)
  | 0, l, _ => onlyMausBold_refl l
  | _ + 1, [], _ => .nil
  | fuel + 1, c :: rest, h => by
    cases hm : matchEntryAt (c :: rest) with
    | none =>
      simp only [subEntriesF, hm]
      exact .cons c (subEntriesF_only fuel rest
        (by have := List.length_cons c rest ▸ h; omega))
    | some g =>
      obtain ⟨g1, g2⟩ := g
      simp only [subEntriesF, hm]
      have hle := matchEntryAt_le hm
      conv_lhs => rw [take_drop_decomp (c :: rest) g1 g2]
      refine onlyMausBold_append (onlyMausBold_append (onlyMausBold_append
        (onlyMausBold_refl _) (boldMaus_only _)) (onlyMausBold_refl _)) ?_
      exact subEntriesF_only fuel ((c :: rest).drop (g1 + g2 + 6))
        (by simp only [List.length_drop]
            have := List.length_cons c rest ▸ h
            omega)

theorem subEntriesF_id : ∀ (fuel : Nat) (l : List Char),
    hasEntryMatch l = false → subEntriesF fuel l = l
  | 0, _, _ => rfl
  | _ + 1, [], _ => rfl
  | fuel + 1, c :: rest, h => by
    rw [hasEntryMatch] at h
    have h1 : matchEntryAt (c :: rest) = none := by
      cases hm : matchEntryAt (c :: rest) with
      | none => rfl
      | some g => rw [hm] at h; simp at h
    have h2 : hasEntryMatch rest = false := by
      rw [h1] at h
      simpa using h
    simp only [subEntriesF, h1]
    rw [subEntriesF_id fuel rest h2]

/-- Relation between a page and its post-processed form: at positions
where the entry pattern does not match, the character is copied
verbatim; at each (leftmost) match, `group(1)` (the opening tag) and
`group(3)` (the closing `</div>`) are copied verbatim and only
`group(2)` (the entry content) is rewritten, by the Maus bolding;
nothing else changes. -/
inductive EntryFrame : List Char → List Char → Prop
  | nil : EntryFrame [] []
  | copy (c : Char) {s t : List Char} :
      matchEntryAt (c :: s) = none → EntryFrame s t → EntryFrame (c :: s) (c :: t)
  | entry {g1c g2c g3c s t : List Char} :
      matchEntryAt (g1c ++ g2c ++ g3c ++ s) = some (g1c.length, g2c.length) →
      g3c.length = 6 → EntryFrame s t →
      EntryFrame (g1c ++ g2c ++ g3c ++ s) (g1c ++ boldMaus g2c ++ g3c ++ t)

theorem subEntriesF_frame : ∀ (fuel : Nat) (l : List Char), l.length ≤ fuel →
    EntryFrame l (subEntriesF fuel l)
  | 0, l, h => by
    have : l = [] := List.eq_nil_of_length_eq_zero (Nat.le_zero.1 h)
    subst this
    exact .nil
  | _ + 1, [], _ => .nil
  | fuel + 1, c :: rest, h => by
    cases hm : matchEntryAt (c :: rest) with
    | none =>
      simp only [subEntriesF, hm]
      exact .copy c hm (subEntriesF_frame fuel rest
        (by have := List.length_cons c rest ▸ h; omega))
    | some g =>
      obtain ⟨g1, g2⟩ := g
      simp only [subEntriesF, hm]
      have hle := matchEntryAt_le hm
      have hlen : (c :: rest).length = rest.length + 1 := List.length_cons c rest
      have hg1 : ((c :: rest).take g1).length = g1 := by
        rw [List.length_take]
        omega
      have hg2 : (((c :: rest).drop g1).take g2).length = g2 := by
        rw [List.length_take, List.length_drop]
        omega
      have hg3 : (((c :: rest).drop (g1 + g2)).take 6).length = 6 := by
        rw [List.length_take, List.length_drop]
        omega
      have hdec := take_drop_decomp (c :: rest) g1 g2
      have hm2 : matchEntryAt ((c :: rest).take g1 ++ ((c :: rest).drop g1).take g2 ++
          ((c :: rest).drop (g1 + g2)).take 6 ++ (c :: rest).drop (g1 + g2 + 6)) =
          some (((c :: rest).take g1).length, (((c :: rest).drop g1).take g2).length) := by
        rw [← hdec, hg1, hg2]
        exact hm
      conv_lhs => rw [hdec]
      exact .entry hm2 hg3 (subEntriesF_frame fuel ((c :: rest).drop (g1 + g2 + 6))
        (by simp only [List.length_drop]
            omega))

/-- C9: the HTML post-processing is a frame transformation.  On a page
with no marked citation container it is the identity; in general the
output differs from the input only by rewriting occurrences of the
literal surname `Maus` to `<strong>Maus</strong>` (`OnlyMausBold`), and
those rewrites happen only inside the content group of matched citation
containers, whose surrounding markup — like all text outside matches —
is copied verbatim (`EntryFrame`). -/
theorem C9_frame_transformation (l : List Char) :
    (hasEntryMatch l = false → process_content l = l) ∧
    OnlyMausBold l (process_content l) ∧
    EntryFrame l (process_content l) :=
  ⟨fun h => subEntriesF_id l.length l h,
   subEntriesF_only l.length l le_rfl,
   subEntriesF_frame l.length l le_rfl⟩

/-- Witness for C9 on a concrete container-free page. -/
theorem C9_frame_transformation_witness :
    hasEntryMatch "<p>hello Maus</p>".toList = false ∧
    process_content "<p>hello Maus</p>".toList = "<p>hello Maus</p>".toList :=
  ⟨by decide, (C9_frame_transformation _).1 (by decide)⟩

/-! ## Idempotence of the repair on well-formed covered text (C1)

The proof tracks the repair through the stages of the table: the 36
single-character entries up to `º`, the two ampersand entries, the two
curly-quote entries, and the four corrupted-sequence entries.  On input
made of ASCII and well-formed covered characters, the result is pure
ASCII containing no occurrence of either ampersand key, so a second
pass changes nothing. -/

/-- The well-formed single characters covered by the repair table: its
single-character keys.  (The multi-character keys are the corrupted
byte sequences and the malformed ampersand encodings, which are not
well-formed single characters.) -/
def wfKeyChars : List Char :=
  ['á', 'Á', 'à', 'À', 'ã', 'Ã', 'é', 'É', 'è', 'È', 'í', 'Í',
   'ó', 'Ó', 'ò', 'Ò', 'õ', 'Õ', 'ú', 'Ú', 'ù', 'Ù', 'ä', 'Ä',
   'ö', 'Ö', 'ü', 'Ü', 'ñ', 'Ñ', 'ç', 'Ç', '–', '—', 'ß', 'º', '“', '”']

/-- The value shared by the two ampersand entries. -/
def ampV : List Char := ['{', '\\', '&', '}']

theorem replaceAllF_no_occ (k v : List Char) (hk : k ≠ []) :
    ∀ (fuel : Nat) (l : List Char), ¬ k <:+: l → replaceAllF k v fuel l = l
  | 0, l, _ => rfl
  | _ + 1, [], _ => rfl
  | fuel + 1, c :: rest, hocc => by
    have hp : ¬ k.isPrefixOf (c :: rest) = true := by
      intro hpre
      exact hocc (List.isPrefixOf_iff_prefix.1 hpre).isInfix
    rw [show replaceAllF k v (fuel + 1) (c :: rest) =
      if k.isPrefixOf (c :: rest) then
        v ++ replaceAllF k v fuel (rest.drop (k.length - 1))
      else c :: replaceAllF k v fuel rest from rfl, if_neg hp]
    rw [replaceAllF_no_occ k v hk fuel rest
      (fun h2 => hocc (List.infix_cons_iff.2 (Or.inr h2)))]

theorem replaceAll_no_occ (k v l : List Char) (hocc : ¬ k <:+: l) :
    replaceAll k v l = l := by
  by_cases hk : k = []
  · exact absurd (hk ▸ List.nil_infix) hocc
  · rw [replaceAll, if_neg hk]
    exact replaceAllF_no_occ k v hk l.length l hocc

theorem replaceAllF_single (q : Char) (v : List Char) :
    ∀ (fuel : Nat) (l : List Char), l.length ≤ fuel →
      replaceAllF [q] v fuel l = l.flatMap (fun c => if c = q then v else [c])
  | 0, l, h => by
    have : l = [] := List.eq_nil_of_length_eq_zero (Nat.le_zero.1 h)
    subst this
    rfl
  | _ + 1, [], _ => rfl
  | fuel + 1, c :: rest, h => by
    rw [show replaceAllF [q] v (fuel + 1) (c :: rest) =
      if ([q]).isPrefixOf (c :: rest) then
        v ++ replaceAllF [q] v fuel (rest.drop 0)
      else c :: replaceAllF [q] v fuel rest from rfl]
    rw [List.flatMap_cons, List.drop_zero]
    have hlen : rest.length ≤ fuel := by
      have := List.length_cons c rest ▸ h
      omega
    by_cases hc : c = q
    · rw [if_pos (by simp [List.isPrefixOf, hc]), if_pos hc,
        replaceAllF_single q v fuel rest hlen]
    · rw [if_neg (by simp [List.isPrefixOf]; exact fun h2 => hc h2.symm), if_neg hc,
        replaceAllF_single q v fuel rest hlen, List.singleton_append]

theorem mem_replaceAllF (k v : List Char) :
    ∀ (fuel : Nat) (l : List Char) (c : Char), c ∈ replaceAllF k v fuel l →
      c ∈ l ∨ c ∈ v
  | 0, _, _, h => Or.inl h
  | _ + 1, [], c, h => absurd h (List.not_mem_nil c)
  | fuel + 1, d :: rest, c, h => by
    by_cases hp : k.isPrefixOf (d :: rest) = true
    · rw [show replaceAllF k v (fuel + 1) (d :: rest) =
        if k.isPrefixOf (d :: rest) then
          v ++ replaceAllF k v fuel (rest.drop (k.length - 1))
        else d :: replaceAllF k v fuel rest from rfl, if_pos hp] at h
      rcases List.mem_append.1 h with hv | hrec
      · exact Or.inr hv
      · rcases mem_replaceAllF k v fuel _ c hrec with hl | hv
        · exact Or.inl (List.mem_cons_of_mem d (List.mem_of_mem_drop hl))
        · exact Or.inr hv
    · rw [show replaceAllF k v (fuel + 1) (d :: rest) =
        if k.isPrefixOf (d :: rest) then
          v ++ replaceAllF k v fuel (rest.drop (k.length - 1))
        else d :: replaceAllF k v fuel rest from rfl, if_neg hp] at h
      rcases List.mem_cons.1 h with rfl | hrec
      · exact Or.inl (List.mem_cons_self c rest)
      · rcases mem_replaceAllF k v fuel rest c hrec with hl | hv
        · exact Or.inl (List.mem_cons_of_mem d hl)
        · exact Or.inr hv

theorem mem_replaceAll (k v l : List Char) (c : Char)
    (h : c ∈ replaceAll k v l) : c ∈ l ∨ c ∈ v := by
  rw [replaceAll] at h
  by_cases hk : k = []
  · rw [if_pos hk] at h
    exact Or.inl h
  · rw [if_neg hk] at h
    exact mem_replaceAllF k v l.length l c h

theorem mem_replaceAll_single (q : Char) (v l : List Char) (c : Char)
    (h : c ∈ replaceAll [q] v l) : c ∈ v ∨ (c ∈ l ∧ c ≠ q) := by
  rw [replaceAll, if_neg (by simp), replaceAllF_single q v l.length l le_rfl] at h
  rcases List.mem_flatMap.1 h with ⟨d, hd, hc⟩
  by_cases hdq : d = q
  · rw [if_pos hdq] at hc
    exact Or.inl hc
  · rw [if_neg hdq] at hc
    have : c = d := List.mem_singleton.1 hc
    subst this
    exact Or.inr ⟨hd, hdq⟩

theorem foldl_singles_mem (entries : List (List Char × List Char))
    (h1 : ∀ e ∈ entries, e.1.length = 1)
    (h2 : ∀ e ∈ entries, ∀ c ∈ e.2, c.val < 128) :
    ∀ (s : List Char) (c : Char),
      c ∈ entries.foldl (fun acc e => replaceAll e.1 e.2 acc) s →
      c.val < 128 ∨ (c ∈ s ∧ ∀ e ∈ entries, e.1 ≠ [c]) := by
  induction entries with
  | nil =>
    intro s c h
    exact Or.inr ⟨h, by simp⟩
  | cons e es ih =>
    intro s c h
    rw [List.foldl_cons] at h
    obtain ⟨k, hk⟩ := List.length_eq_one.1 (h1 e (List.mem_cons_self e es))
    rcases ih (fun e' he' => h1 e' (List.mem_cons_of_mem e he'))
      (fun e' he' => h2 e' (List.mem_cons_of_mem e he'))
      (replaceAll e.1 e.2 s) c h with hascii | ⟨hmem, hne⟩
    · exact Or.inl hascii
    · rw [hk] at hmem
      rcases mem_replaceAll_single k e.2 s c hmem with hv | ⟨hs, hcne⟩
      · exact Or.inl (h2 e (List.mem_cons_self e es) c hv)
      · refine Or.inr ⟨hs, ?_⟩
        intro e' he'
        rcases List.mem_cons.1 he' with rfl | he2
        · rw [hk]
          intro hbad
          have hkc : k = c := by injection hbad
          exact hcne hkc.symm
        · exact hne e' he2

theorem foldl_id_of_no_occ (entries : List (List Char × List Char)) :
    ∀ s : List Char, (∀ e ∈ entries, ¬ e.1 <:+: s) →
      entries.foldl (fun acc e => replaceAll e.1 e.2 acc) s = s := by
  induction entries with
  | nil => intro s _; rfl
  | cons e es ih =>
    intro s h
    rw [List.foldl_cons, replaceAll_no_occ e.1 e.2 s (h e (List.mem_cons_self e es))]
    exact ih s (fun e' he' => h e' (List.mem_cons_of_mem e he'))

theorem infix_append_split {k : List Char} : ∀ {x y : List Char}, k <:+: x ++ y →
    k <:+: y ∨ ∃ x₂, x₂ ≠ [] ∧ x₂ <:+ x ∧ k <+: x₂ ++ y := by
  intro x
  induction x with
  | nil =>
    intro y h
    exact Or.inl (by simpa using h)
  | cons c x' ih =>
    intro y h
    rw [List.cons_append] at h
    rcases List.infix_cons_iff.1 h with hpre | hinf
    · exact Or.inr ⟨c :: x', by simp, List.suffix_rfl, by simpa using hpre⟩
    · rcases ih hinf with hy | ⟨x₂, hne, hsuf, hpre⟩
      · exact Or.inl hy
      · exact Or.inr ⟨x₂, hne, hsuf.trans (List.suffix_cons c x'), hpre⟩

theorem prefix_of_ampV_suffix (k : List Char) (d : Char) (k₂ : List Char)
    (hk : k = '&' :: d :: k₂) (hd : d = 'a' ∨ d = 'A') :
    ∀ (x₂ R : List Char), x₂ ≠ [] → x₂ <:+ ampV → ¬ k <+: x₂ ++ R := by
  intro x₂ R hne hsuf hpre
  have hx : x₂ ∈ ampV.tails := (List.mem_tails x₂ ampV).2 hsuf
  rw [show ampV.tails = [['{', '\\', '&', '}'], ['\\', '&', '}'], ['&', '}'],
    ['}'], []] from rfl] at hx
  subst hk
  simp only [List.mem_cons, List.not_mem_nil, or_false] at hx
  rcases hx with rfl | rfl | rfl | rfl | rfl
  · rcases List.cons_prefix_cons.1 hpre with ⟨h1, -⟩
    exact absurd h1 (by decide)
  · rcases List.cons_prefix_cons.1 hpre with ⟨h1, -⟩
    exact absurd h1 (by decide)
  · rcases List.cons_prefix_cons.1 hpre with ⟨-, h2⟩
    rcases List.cons_prefix_cons.1 h2 with ⟨h3, -⟩
    rcases hd with rfl | rfl
    · exact absurd h3 (by decide)
    · exact absurd h3 (by decide)
  · rcases List.cons_prefix_cons.1 hpre with ⟨h1, -⟩
    exact absurd h1 (by decide)
  · exact hne rfl

theorem prefix_replaceAllF_pull (k : List Char) (w : Char) (vt : List Char) :
    ∀ (fuel : Nat) (t p : List Char), w ∉ p →
      p <+: replaceAllF k (w :: vt) fuel t → p <+: t
  | 0, t, p, _, hpre => hpre
  | _ + 1, [], p, _, hpre => hpre
  | fuel + 1, c :: rest, p, hw, hpre => by
    by_cases hk : k.isPrefixOf (c :: rest) = true
    · rw [show replaceAllF k (w :: vt) (fuel + 1) (c :: rest) =
        if k.isPrefixOf (c :: rest) then
          (w :: vt) ++ replaceAllF k (w :: vt) fuel (rest.drop (k.length - 1))
        else c :: replaceAllF k (w :: vt) fuel rest from rfl, if_pos hk] at hpre
      cases p with
      | nil => exact List.nil_prefix
      | cons d p' =>
        rw [List.cons_append] at hpre
        rcases List.cons_prefix_cons.1 hpre with ⟨heq, -⟩
        exact absurd (by rw [← heq]; exact List.mem_cons_self d p') hw
    · rw [show replaceAllF k (w :: vt) (fuel + 1) (c :: rest) =
        if k.isPrefixOf (c :: rest) then
          (w :: vt) ++ replaceAllF k (w :: vt) fuel (rest.drop (k.length - 1))
        else c :: replaceAllF k (w :: vt) fuel rest from rfl, if_neg hk] at hpre
      cases p with
      | nil => exact List.nil_prefix
      | cons d p' =>
        rcases List.cons_prefix_cons.1 hpre with ⟨rfl, hp'⟩
        exact List.cons_prefix_cons.2 ⟨rfl,
          prefix_replaceAllF_pull k w vt fuel rest p'
            (fun hm => hw (List.mem_cons_of_mem _ hm)) hp'⟩

theorem infix_cons_of_tail {k t : List Char} (c : Char) (h : k <:+: t) :
    k <:+: c :: t :=
  List.infix_cons_iff.2 (Or.inr h)

theorem infix_of_infix_drop {k rest : List Char} {n : Nat} (c : Char)
    (h : k <:+: rest.drop n) : k <:+: c :: rest :=
  infix_cons_of_tail c (h.trans (List.drop_suffix n rest).isInfix)

theorem replaceAllF_key_vanish (k : List Char) (d : Char) (k₂ : List Char)
    (hk : k = '&' :: d :: k₂) (hd : d = 'a' ∨ d = 'A') (hbr : '{' ∉ d :: k₂) :
    ∀ (fuel : Nat) (l : List Char), l.length ≤ fuel →
      ¬ k <:+: replaceAllF k ampV fuel l
  | 0, l, h, hocc => by
    subst hk
    have hl : l = [] := List.eq_nil_of_length_eq_zero (Nat.le_zero.1 h)
    subst hl
    exact List.noConfusion (List.infix_nil.1 hocc)
  | _ + 1, [], _, hocc => by
    subst hk
    exact List.noConfusion (List.infix_nil.1 hocc)
  | fuel + 1, c :: rest, h, hocc => by
    have hlen : rest.length ≤ fuel := by
      have := List.length_cons c rest ▸ h
      omega
    by_cases hp : k.isPrefixOf (c :: rest) = true
    · rw [show replaceAllF k ampV (fuel + 1) (c :: rest) =
        if k.isPrefixOf (c :: rest) then
          ampV ++ replaceAllF k ampV fuel (rest.drop (k.length - 1))
        else c :: replaceAllF k ampV fuel rest from rfl, if_pos hp] at hocc
      rcases infix_append_split hocc with hR | ⟨x₂, hne, hsuf, hpre⟩
      · exact replaceAllF_key_vanish k d k₂ hk hd hbr fuel _
          (le_trans (by rw [List.length_drop]; omega) hlen) hR
      · exact prefix_of_ampV_suffix k d k₂ hk hd x₂ _ hne hsuf hpre
    · rw [show replaceAllF k ampV (fuel + 1) (c :: rest) =
        if k.isPrefixOf (c :: rest) then
          ampV ++ replaceAllF k ampV fuel (rest.drop (k.length - 1))
        else c :: replaceAllF k ampV fuel rest from rfl, if_neg hp] at hocc
      rcases List.infix_cons_iff.1 hocc with hpre2 | hinf
      · subst hk
        rcases List.cons_prefix_cons.1 hpre2 with ⟨heq, hp'⟩
        have hp2 : (d :: k₂) <+: replaceAllF ('&' :: d :: k₂) ('{' :: ['\\', '&', '}'])
            fuel rest := hp'
        have hpull := prefix_replaceAllF_pull ('&' :: d :: k₂) '{' ['\\', '&', '}']
          fuel rest (d :: k₂) hbr hp2
        exact hp (List.isPrefixOf_iff_prefix.2 (List.cons_prefix_cons.2 ⟨heq, hpull⟩))
      · exact replaceAllF_key_vanish k d k₂ hk hd hbr fuel rest hlen hinf

theorem replaceAllF_other_vanish (k k' : List Char) (d : Char) (k₂ : List Char)
    (hk' : k' = '&' :: d :: k₂) (hd : d = 'a' ∨ d = 'A') (hbr : '{' ∉ d :: k₂) :
    ∀ (fuel : Nat) (l : List Char), ¬ k' <:+: l →
      ¬ k' <:+: replaceAllF k ampV fuel l
  | 0, _, hl, hocc => hl hocc
  | _ + 1, [], hl, hocc => hl hocc
  | fuel + 1, c :: rest, hl, hocc => by
    by_cases hp : k.isPrefixOf (c :: rest) = true
    · rw [show replaceAllF k ampV (fuel + 1) (c :: rest) =
        if k.isPrefixOf (c :: rest) then
          ampV ++ replaceAllF k ampV fuel (rest.drop (k.length - 1))
        else c :: replaceAllF k ampV fuel rest from rfl, if_pos hp] at hocc
      rcases infix_append_split hocc with hR | ⟨x₂, hne, hsuf, hpre⟩
      · exact replaceAllF_other_vanish k k' d k₂ hk' hd hbr fuel _
          (fun h2 => hl (infix_of_infix_drop c h2)) hR
      · subst hk'
        exact prefix_of_ampV_suffix _ d k₂ rfl hd x₂ _ hne hsuf hpre
    · rw [show replaceAllF k ampV (fuel + 1) (c :: rest) =
        if k.isPrefixOf (c :: rest) then
          ampV ++ replaceAllF k ampV fuel (rest.drop (k.length - 1))
        else c :: replaceAllF k ampV fuel rest from rfl, if_neg hp] at hocc
      rcases List.infix_cons_iff.1 hocc with hpre2 | hinf
      · subst hk'
        rcases List.cons_prefix_cons.1 hpre2 with ⟨heq, hp'⟩
        have hp2 : (d :: k₂) <+: replaceAllF k ('{' :: ['\\', '&', '}'])
            fuel rest := hp'
        have hpull := prefix_replaceAllF_pull k '{' ['\\', '&', '}']
          fuel rest (d :: k₂) hbr hp2
        exact hl (List.cons_prefix_cons.2 ⟨heq, hpull⟩).isInfix
      · exact replaceAllF_other_vanish k k' d k₂ hk' hd hbr fuel rest
          (fun h2 => hl (infix_cons_of_tail c h2)) hinf

theorem replaceAll_key_vanish (k : List Char) (d : Char) (k₂ : List Char)
    (hk : k = '&' :: d :: k₂) (hd : d = 'a' ∨ d = 'A') (hbr : '{' ∉ d :: k₂)
    (l : List Char) : ¬ k <:+: replaceAll k ampV l := by
  rw [replaceAll, if_neg (by subst hk; simp)]
  exact replaceAllF_key_vanish k d k₂ hk hd hbr l.length l le_rfl

theorem replaceAll_other_vanish (k k' : List Char) (d : Char) (k₂ : List Char)
    (hk' : k' = '&' :: d :: k₂) (hd : d = 'a' ∨ d = 'A') (hbr : '{' ∉ d :: k₂)
    (l : List Char) (hl : ¬ k' <:+: l) : ¬ k' <:+: replaceAll k ampV l := by
  by_cases hk : k = []
  · rwa [replaceAll, if_pos hk]
  · rw [replaceAll, if_neg hk]
    exact replaceAllF_other_vanish k k' d k₂ hk' hd hbr l.length l hl

theorem infix_drop_through_append {k v' L : List Char} (hk : k ≠ [])
    (hdisj : ∀ c ∈ v', c ∉ k) (h : k <:+: v' ++ L) : k <:+: L := by
  induction v' with
  | nil => simpa using h
  | cons c v'' ih =>
    rw [List.cons_append] at h
    rcases List.infix_cons_iff.1 h with hpre | hinf
    · cases k with
      | nil => exact absurd rfl hk
      | cons a k' =>
        rcases List.cons_prefix_cons.1 hpre with ⟨heq, -⟩
        exact absurd (List.mem_cons_self a k')
          (hdisj a (by rw [heq]; exact List.mem_cons_self c v''))
    · exact ih (fun c' hc' => hdisj c' (List.mem_cons_of_mem c hc')) hinf

theorem prefix_flatMap_pull (q : Char) (v' : List Char) (hv : v' ≠ []) :
    ∀ (t p : List Char), (∀ c ∈ p, c ∉ v') →
      p <+: t.flatMap (fun c => if c = q then v' else [c]) → p <+: t
  | t, [], _, _ => List.nil_prefix
  | [], d :: p', _, hpre => by simp at hpre
  | c :: t', d :: p', hdis, hpre => by
    rw [List.flatMap_cons] at hpre
    by_cases hc : c = q
    · rw [if_pos hc] at hpre
      cases v' with
      | nil => exact absurd rfl hv
      | cons w vt =>
        rw [List.cons_append] at hpre
        rcases List.cons_prefix_cons.1 hpre with ⟨heq, -⟩
        exact absurd (by rw [heq]; exact List.mem_cons_self w vt)
          (hdis d (List.mem_cons_self d p'))
    · rw [if_neg hc, List.singleton_append] at hpre
      rcases List.cons_prefix_cons.1 hpre with ⟨rfl, hp'⟩
      exact List.cons_prefix_cons.2 ⟨rfl,
        prefix_flatMap_pull q v' hv t' p'
          (fun c' h => hdis c' (List.mem_cons_of_mem _ h)) hp'⟩

theorem flatMap_no_create (k : List Char) (q : Char) (v' : List Char)
    (hk : k ≠ []) (hv : v' ≠ []) (hdisj : ∀ c ∈ v', c ∉ k) :
    ∀ l : List Char, k <:+: l.flatMap (fun c => if c = q then v' else [c]) →
      k <:+: l
  | [], h => by simpa using h
  | c :: rest, h => by
    rw [List.flatMap_cons] at h
    by_cases hc : c = q
    · rw [if_pos hc] at h
      exact infix_cons_of_tail c
        (flatMap_no_create k q v' hk hv hdisj rest
          (infix_drop_through_append hk hdisj h))
    · rw [if_neg hc, List.singleton_append] at h
      rcases List.infix_cons_iff.1 h with hpre | hinf
      · cases k with
        | nil => exact absurd rfl hk
        | cons a k' =>
          rcases List.cons_prefix_cons.1 hpre with ⟨rfl, hp'⟩
          have hdis2 : ∀ c' ∈ k', c' ∉ v' :=
            fun c' hc' hv' => hdisj c' hv' (List.mem_cons_of_mem a hc')
          exact (List.cons_prefix_cons.2
            ⟨rfl, prefix_flatMap_pull q v' hv rest k' hdis2 hp'⟩).isInfix
      · exact infix_cons_of_tail c (flatMap_no_create k q v' hk hv hdisj rest hinf)

theorem replaceAll_single_no_create (k : List Char) (q : Char) (v' l : List Char)
    (hk : k ≠ []) (hv : v' ≠ []) (hdisj : ∀ c ∈ v', c ∉ k)
    (hl : ¬ k <:+: l) : ¬ k <:+: replaceAll [q] v' l := by
  rw [replaceAll, if_neg (by simp), replaceAllF_single q v' l.length l le_rfl]
  intro h
  exact hl (flatMap_no_create k q v' hk hv hdisj l h)

theorem composePair_none (b m : Char) (hm : m ∉ markChars) :
    composePair b m = none := by
  have hfind : composeTable.find? (fun e => e.1.1 == b && e.1.2 == m) = none := by
    rw [List.find?_eq_none]
    intro e he hmatch
    have h2 : e.1.2 = m := eq_of_beq (Bool.and_eq_true _ _ ▸ hmatch).2
    have hall : ∀ e' ∈ composeTable, e'.1.2 ∈ markChars := by decide
    exact hm (h2 ▸ hall e he)
  rw [composePair, hfind]
  rfl

theorem composeCharsF_id : ∀ (fuel : Nat) (l : List Char), l.length ≤ fuel →
    (∀ c ∈ l, c ∉ markChars) → composeCharsF fuel l = l
  | 0, _, _, _ => rfl
  | _ + 1, [], _, _ => rfl
  | _ + 1, [_], _, _ => rfl
  | fuel + 1, x :: y :: r, hf, hm => by
    rw [show composeCharsF (fuel + 1) (x :: y :: r) =
      (match composePair x y with
       | some z => composeCharsF fuel (z :: r)
       | none => x :: composeCharsF fuel (y :: r)) from rfl]
    rw [composePair_none x y (hm y (List.mem_cons_of_mem x (List.mem_cons_self y r)))]
    rw [composeCharsF_id fuel (y :: r)
      (by simp only [List.length_cons] at hf ⊢; omega)
      (fun c hc => hm c (List.mem_cons_of_mem x hc))]

theorem composeChars_id (l : List Char) (h : ∀ c ∈ l, c ∉ markChars) :
    composeChars l = l := composeCharsF_id l.length l le_rfl h

theorem nfkc_eq_map (l : List Char) (h : ∀ c ∈ l, compatChar c ∉ markChars) :
    nfkc l = l.map compatChar := by
  rw [nfkc]
  refine composeChars_id _ ?_
  intro c hc
  rcases List.mem_map.1 hc with ⟨d, hd, rfl⟩
  exact h d hd

theorem not_mark_of_wf (c : Char) (h : c.val < 128 ∨ c ∈ wfKeyChars) :
    c ∉ markChars := by
  intro hmem
  have h768 : ∀ m ∈ markChars, ¬ m.val < 128 := by decide
  have hwf : ∀ m ∈ markChars, m ∉ wfKeyChars := by decide
  rcases h with ha | hw
  · exact h768 c hmem ha
  · exact hwf c hmem hw

/-- The middle of the repair table: entries 37 to 40 are the two
ampersand entries followed by the two curly-quote entries. -/
theorem latexMap_mid : (LATEX_MAP.drop 36).take 4 =
    [(['&', 'A', 'm', 'p', ';'], ampV), (['&', 'a', 'm', 'p', ';'], ampV),
     (['“'], [bq, bq]), (['”'], [sq, sq])] := rfl

/-- The substitution fold, staged: the 36 single-character entries up
to `º`, then the two ampersand entries, the two curly-quote entries,
and the four corrupted-sequence entries. -/
theorem applyLatexMap_stages (m : List Char) :
    applyLatexMap m =
      (LATEX_MAP.drop 40).foldl (fun acc e => replaceAll e.1 e.2 acc)
        (replaceAll ['”'] [sq, sq]
          (replaceAll ['“'] [bq, bq]
            (replaceAll ['&', 'a', 'm', 'p', ';'] ampV
              (replaceAll ['&', 'A', 'm', 'p', ';'] ampV
                ((LATEX_MAP.take 36).foldl
                  (fun acc e => replaceAll e.1 e.2 acc) m))))) := by
  calc applyLatexMap m
      = (LATEX_MAP.take 36 ++ LATEX_MAP.drop 36).foldl
          (fun acc e => replaceAll e.1 e.2 acc) m := by
        rw [applyLatexMap, List.take_append_drop]
    _ = (LATEX_MAP.drop 36).foldl (fun acc e => replaceAll e.1 e.2 acc)
          ((LATEX_MAP.take 36).foldl (fun acc e => replaceAll e.1 e.2 acc) m) :=
        List.foldl_append _ _ _ _
    _ = ((LATEX_MAP.drop 36).take 4 ++ (LATEX_MAP.drop 36).drop 4).foldl
          (fun acc e => replaceAll e.1 e.2 acc)
          ((LATEX_MAP.take 36).foldl (fun acc e => replaceAll e.1 e.2 acc) m) := by
        rw [List.take_append_drop]
    _ = ((LATEX_MAP.drop 36).drop 4).foldl (fun acc e => replaceAll e.1 e.2 acc)
          (((LATEX_MAP.drop 36).take 4).foldl (fun acc e => replaceAll e.1 e.2 acc)
            ((LATEX_MAP.take 36).foldl (fun acc e => replaceAll e.1 e.2 acc) m)) :=
        List.foldl_append _ _ _ _
    _ = (LATEX_MAP.drop 40).foldl (fun acc e => replaceAll e.1 e.2 acc)
          (replaceAll ['”'] [sq, sq]
            (replaceAll ['“'] [bq, bq]
              (replaceAll ['&', 'a', 'm', 'p', ';'] ampV
                (replaceAll ['&', 'A', 'm', 'p', ';'] ampV
                  ((LATEX_MAP.take 36).foldl
                    (fun acc e => replaceAll e.1 e.2 acc) m))))) := by
        rw [latexMap_mid, List.drop_drop]
        simp only [List.foldl_cons, List.foldl_nil]

/-- C1: the repair is idempotent on text made only of ASCII and the
well-formed characters covered by the table: one pass leaves pure ASCII
with no occurrence of either ampersand key, so a second pass is the
identity. -/
theorem C1_repair_idempotent (l : List Char)
    (h : ∀ c ∈ l, c.val < 128 ∨ c ∈ wfKeyChars) :
    cleanup_bibtex_entry (cleanup_bibtex_entry l) = cleanup_bibtex_entry l := by
  have hnfkc : nfkc l = l.map compatChar := by
    refine nfkc_eq_map l ?_
    intro c hc
    by_cases hq : c = 'º'
    · rw [compatChar, if_pos hq]
      exact not_mark_of_wf 'o' (Or.inl (by decide))
    · rw [compatChar, if_neg hq]
      exact not_mark_of_wf c (h c hc)
  have hm : ∀ c ∈ l.map compatChar, c.val < 128 ∨ (c ∈ wfKeyChars ∧ c ≠ 'º') := by
    intro c hc
    rcases List.mem_map.1 hc with ⟨d, hd, rfl⟩
    by_cases hq : d = 'º'
    · rw [compatChar, if_pos hq]
      exact Or.inl (by decide)
    · rw [compatChar, if_neg hq]
      rcases h d hd with ha | hw
      · exact Or.inl ha
      · exact Or.inr ⟨hw, hq⟩
  obtain ⟨s1, hs1⟩ : ∃ s1, (LATEX_MAP.take 36).foldl
      (fun acc e => replaceAll e.1 e.2 acc) (l.map compatChar) = s1 := ⟨_, rfl⟩
  obtain ⟨t1, ht1⟩ : ∃ t1, replaceAll ['&', 'A', 'm', 'p', ';'] ampV s1 = t1 := ⟨_, rfl⟩
  obtain ⟨t2, ht2⟩ : ∃ t2, replaceAll ['&', 'a', 'm', 'p', ';'] ampV t1 = t2 := ⟨_, rfl⟩
  obtain ⟨u1, hu1⟩ : ∃ u1, replaceAll ['“'] [bq, bq] t2 = u1 := ⟨_, rfl⟩
  obtain ⟨u2, hu2⟩ : ∃ u2, replaceAll ['”'] [sq, sq] u1 = u2 := ⟨_, rfl⟩
  have hchar1 : ∀ c ∈ s1, c.val < 128 ∨ c = '“' ∨ c = '”' := by
    intro c hc
    have d1 : ∀ e ∈ LATEX_MAP.take 36, e.1.length = 1 := by decide
    have d2 : ∀ e ∈ LATEX_MAP.take 36, ∀ c' ∈ e.2, c'.val < 128 := by decide
    rcases foldl_singles_mem (LATEX_MAP.take 36) d1 d2 (l.map compatChar) c
      (hs1 ▸ hc) with ha | ⟨hmem, hne⟩
    · exact Or.inl ha
    · rcases hm c hmem with ha | ⟨hw, hq⟩
      · exact Or.inl ha
      · have d3 : ∀ c' ∈ wfKeyChars, c' = 'º' ∨ c' = '“' ∨ c' = '”' ∨
            ∃ e ∈ LATEX_MAP.take 36, e.1 = [c'] := by decide
        rcases d3 c hw with hq2 | hq2 | hq2 | ⟨e, he, hee⟩
        · exact absurd hq2 hq
        · exact Or.inr (Or.inl hq2)
        · exact Or.inr (Or.inr hq2)
        · exact absurd hee (hne e he)
  have hA1t1 : ¬ ['&', 'A', 'm', 'p', ';'] <:+: t1 :=
    ht1 ▸ replaceAll_key_vanish _ 'A' ['m', 'p', ';'] rfl (Or.inr rfl) (by decide) s1
  have hA2t2 : ¬ ['&', 'a', 'm', 'p', ';'] <:+: t2 :=
    ht2 ▸ replaceAll_key_vanish _ 'a' ['m', 'p', ';'] rfl (Or.inl rfl) (by decide) t1
  have hA1t2 : ¬ ['&', 'A', 'm', 'p', ';'] <:+: t2 :=
    ht2 ▸ replaceAll_other_vanish _ _ 'A' ['m', 'p', ';'] rfl (Or.inr rfl)
      (by decide) t1 hA1t1
  have hA1u2 : ¬ ['&', 'A', 'm', 'p', ';'] <:+: u2 := by
    refine hu2 ▸ replaceAll_single_no_create _ '”' [sq, sq] u1
      (by simp) (by simp [sq]) (by decide) ?_
    exact hu1 ▸ replaceAll_single_no_create _ '“' [bq, bq] t2
      (by simp) (by simp [bq]) (by decide) hA1t2
  have hA2u2 : ¬ ['&', 'a', 'm', 'p', ';'] <:+: u2 := by
    refine hu2 ▸ replaceAll_single_no_create _ '”' [sq, sq] u1
      (by simp) (by simp [sq]) (by decide) ?_
    exact hu1 ▸ replaceAll_single_no_create _ '“' [bq, bq] t2
      (by simp) (by simp [bq]) (by decide) hA2t2
  have hampA : ∀ c' ∈ ampV, c'.val < 128 := by decide
  have hchar2 : ∀ c ∈ t2, c.val < 128 ∨ c = '“' ∨ c = '”' := by
    intro c hc
    rcases mem_replaceAll _ _ _ c (ht2 ▸ hc) with hc1 | hv
    · rcases mem_replaceAll _ _ _ c (ht1 ▸ hc1) with hc0 | hv
      · exact hchar1 c hc0
      · exact Or.inl (hampA c hv)
    · exact Or.inl (hampA c hv)
  have hchar3 : ∀ c ∈ u2, c.val < 128 := by
    intro c hc
    rcases mem_replaceAll_single _ _ _ c (hu2 ▸ hc) with hv | ⟨hc1, hne2⟩
    · have hq : ∀ c' ∈ [sq, sq], c'.val < 128 := by decide
      exact hq c hv
    · rcases mem_replaceAll_single _ _ _ c (hu1 ▸ hc1) with hv | ⟨hc0, hne1⟩
      · have hq : ∀ c' ∈ [bq, bq], c'.val < 128 := by decide
        exact hq c hv
      · rcases hchar2 c hc0 with ha | hq | hq
        · exact ha
        · exact absurd hq hne1
        · exact absurd hq hne2
  have hR : applyLatexMap (l.map compatChar) = u2 := by
    rw [applyLatexMap_stages, hs1, ht1, ht2, hu1, hu2]
    refine foldl_id_of_no_occ _ u2 ?_
    intro e he hocc
    have d4 : ∀ e' ∈ LATEX_MAP.drop 40, ∃ c ∈ e'.1, ¬ c.val < 128 := by decide
    rcases d4 e he with ⟨c, hck, hcv⟩
    exact hcv (hchar3 c (hocc.subset hck))
  have hnotq : ∀ c ∈ u2, c ≠ 'º' := by
    intro c hc hq
    have := hchar3 c hc
    rw [hq] at this
    exact absurd this (by decide)
  have hcl : cleanup_bibtex_entry l = u2 := by
    rw [cleanup_bibtex_entry, hnfkc, hR]
  have hnf : nfkc u2 = u2 := by
    rw [nfkc_eq_map u2 (fun c hc => by
      rw [compatChar, if_neg (hnotq c hc)]
      exact not_mark_of_wf c (Or.inl (hchar3 c hc)))]
    have hid : u2.map compatChar = u2.map id := List.map_congr_left (fun c hc => by
      rw [compatChar, if_neg (hnotq c hc)]
      rfl)
    rw [hid, List.map_id]
  have hALM : applyLatexMap u2 = u2 := by
    rw [applyLatexMap]
    refine foldl_id_of_no_occ LATEX_MAP u2 ?_
    intro e he hocc
    have d5 : ∀ e' ∈ LATEX_MAP, e'.1 = ['&', 'A', 'm', 'p', ';'] ∨
        e'.1 = ['&', 'a', 'm', 'p', ';'] ∨ ∃ c ∈ e'.1, ¬ c.val < 128 := by decide
    rcases d5 e he with h1 | h1 | ⟨c, hck, hcv⟩
    · exact hA1u2 (h1 ▸ hocc)
    · exact hA2u2 (h1 ▸ hocc)
    · exact hcv (hchar3 c (hocc.subset hck))
  rw [hcl, cleanup_bibtex_entry, hnf, hALM]

/-- Witness for C1 on a concrete string of ASCII and covered
well-formed characters. -/
theorem C1_repair_idempotent_witness :
    (∀ c ∈ "café – &amp; “x” ß º".toList, c.val < 128 ∨ c ∈ wfKeyChars) ∧
    cleanup_bibtex_entry (cleanup_bibtex_entry "café – &amp; “x” ß º".toList) =
      cleanup_bibtex_entry "café – &amp; “x” ß º".toList :=
  ⟨by decide, C1_repair_idempotent _ (by decide)⟩

end OrcidBib
